import Mathlib

/-!
Verification development for the `fuxi` backup manager.

The repository has two variants of the tool: a monolithic `src/main.rs`
(complete), and a modular variant (`src/cfg.rs`, `src/cli.rs`, `src/copy.rs`,
`src/git.rs`) whose own dispatcher file is not present in the sources.  The
definitions below are shallow embeddings of the Rust functions:

* the filesystem is a finite tree of named entries (`Entry`); absolute paths
  are lists of component names; file contents are lists of bytes (`Nat`);
* fallible filesystem primitives return `Except Err`; a permission
  environment `w : List String → Bool` says at which paths creating or
  writing a node is allowed, modelling EACCES-style failures;
* the recursive copy functions take the source subtree as a snapshot value
  (source and destination are disjoint in every call the program makes, so
  interleaved re-reads of the source coincide with the snapshot);
* external subprocesses (`sudo mkdir -p`, `sudo cp -a`) are modelled as the
  corresponding structural filesystem operation run with all permissions
  granted, failing exactly when the operation fails structurally.
-/

/-- A filesystem node: a regular file with byte contents, or a directory
with an ordered list of named children. -/
inductive Entry where
  | file (data : List Nat) : Entry
  | dir (es : List (String × Entry)) : Entry

/-- First entry with the given name in a directory listing. -/
def findE : List (String × Entry) → String → Option Entry
  | [], _ => none
  | (m, e) :: rest, n => if m = n then some e else findE rest n

/-- Replace the first entry with the given name, or append a new one. -/
def upsertE : List (String × Entry) → String → Entry → List (String × Entry)
  | [], n, v => [(n, v)]
  | (m, e) :: rest, n, v =>
      if m = n then (m, v) :: rest else (m, e) :: upsertE rest n v

/-- Resolve an absolute path (list of component names) in a tree. -/
def lookupFs : Entry → List String → Option Entry
  | e, [] => some e
  | .file _, _ :: _ => none
  | .dir es, n :: p =>
      match findE es n with
      | some c => lookupFs c p
      | none => none

/-- Replace (or create, when the parent chain exists) the node at a path. -/
def setPath : Entry → List String → Entry → Option Entry
  | _, [], v => some v
  | .file _, _ :: _, _ => none
  | .dir es, n :: p, v =>
      match p with
      | [] => some (.dir (upsertE es n v))
      | _ :: _ =>
          match findE es n with
          | some c =>
              match setPath c p v with
              | some c' => some (.dir (upsertE es n c'))
              | none => none
          | none => none

/-- Errors surfaced by the modelled filesystem and subprocess operations. -/
inductive Err where
  | notFound (p : List String) : Err
  | notADir (p : List String) : Err
  | isADir (p : List String) : Err
  | permDenied (p : List String) : Err
  | sudoMkdirFailed (p : List String) : Err
  | sudoCpFailed (s d : List String) : Err

/-- Model of `fs::create_dir_all`: walk the path, descending through existing
directories and creating missing ones (each creation subject to the
permission environment `w`); fail on a file in the chain. `pre` is the
absolute path of the node currently looked at, used in errors and
permission checks. -/
def mkAll (w : List String → Bool) : Entry → List String → List String → Except Err Entry
  | .dir es, _, [] => .ok (.dir es)
  | .file _, pre, [] => .error (.notADir pre)
  | .dir es, pre, n :: p =>
      match findE es n with
      | some c =>
          match mkAll w c (pre ++ [n]) p with
          | .ok c' => .ok (.dir (upsertE es n c'))
          | .error e => .error e
      | none =>
          if w (pre ++ [n]) then
            match mkAll w (.dir []) (pre ++ [n]) p with
            | .ok c' => .ok (.dir (upsertE es n c'))
            | .error e => .error e
          else .error (.permDenied (pre ++ [n]))
  | .file _, pre, _ :: _ => .error (.notADir pre)

/-- Model of `fs::create_dir_all` from the filesystem root. -/
def createDirAllP (w : List String → Bool) (fs : Entry) (p : List String) : Except Err Entry :=
  mkAll w fs [] p

/-- Write file contents at a path (the write half of `fs::copy`): fails when
the target is an existing directory, the parent chain is missing, or the
permission environment forbids writing there; otherwise overwrites. -/
def writeF (w : List String → Bool) (fs : Entry) (dst : List String) (d : List Nat) :
    Except Err Entry :=
  match lookupFs fs dst with
  | some (.dir _) => .error (.isADir dst)
  | _ =>
      if w dst then
        match setPath fs dst (.file d) with
        | some fs' => .ok fs'
        | none => .error (.notFound dst.dropLast)
      else .error (.permDenied dst)

/-- Model of `fs::copy src dst`: the source must be an existing regular
file; then write its contents at the destination. -/
def copyF (w : List String → Bool) (fs : Entry) (src dst : List String) : Except Err Entry :=
  match lookupFs fs src with
  | some (.file d) => writeF w fs dst d
  | some (.dir _) => .error (.isADir src)
  | none => .error (.notFound src)

/-- Loop body of `copy_dir_recursive` (src/copy.rs lines 6-16 and
src/main.rs lines 161-171): for each child of the source directory
(snapshot `es`), recurse on subdirectories (which first recreate the
destination directory, inlining the recursive `fs::create_dir_all`) and
`fs::copy` regular files. -/
def copyDirGo (w : List String → Bool) :
    List (String × Entry) → Entry → List String → Except Err Entry
  | [], fs, _ => .ok fs
  | (n, .dir es') :: rest, fs, dst =>
      match createDirAllP w fs (dst ++ [n]) with
      | .error e => .error e
      | .ok fs1 =>
          match copyDirGo w es' fs1 (dst ++ [n]) with
          | .error e => .error e
          | .ok fs2 => copyDirGo w rest fs2 dst
  | (n, .file d) :: rest, fs, dst =>
      match writeF w fs (dst ++ [n]) d with
      | .error e => .error e
      | .ok fs1 => copyDirGo w rest fs1 dst
  termination_by es _ _ => sizeOf es

/-- Model of `copy_dir_recursive(src, dst)` (src/copy.rs lines 4-18, src/main.rs
lines 159-173): create the destination directory, then copy every child of
the source directory (given as the snapshot `es` of its listing). -/
def copy_dir_recursive (w : List String → Bool) (es : List (String × Entry))
    (fs : Entry) (dst : List String) : Except Err Entry :=
  match createDirAllP w fs dst with
  | .error e => .error e
  | .ok fs1 => copyDirGo w es fs1 dst

/-- Model of `copy_file_or_path(src, dst)` from the monolithic variant (src/main.rs
lines 175-185): recursive directory copy for directories, otherwise create
the destination's parent directory and copy the file. -/
def copy_file_or_path_main (w : List String → Bool) (fs : Entry)
    (src dst : List String) : Except Err Entry :=
  match lookupFs fs src with
  | some (.dir es) => copy_dir_recursive w es fs dst
  | _ =>
      match (if dst = [] then .ok fs else createDirAllP w fs dst.dropLast :
          Except Err Entry) with
      | .error e => .error e
      | .ok fs1 => copyF w fs1 src dst

/-- Key `n` does not occur in a directory listing. -/
def keyNotIn (n : String) : List (String × Entry) → Bool
  | [] => true
  | (m, _) :: rest => if m = n then false else keyNotIn n rest

/-- Well-formedness of a tree: no directory has two children with the same
name (the only trees realizable as an actual on-disk state). -/
def wfB : Entry → Bool
  | .file _ => true
  | .dir [] => true
  | .dir ((n, c) :: rest) => wfB c && wfB (.dir rest) && keyNotIn n rest
  termination_by e => sizeOf e

/-- Boolean list-prefix test on paths. -/
def pfxB : List String → List String → Bool
  | [], _ => true
  | _ :: _, [] => false
  | a :: p, b :: q => if a = b then pfxB p q else false

/-- No existing file blocks any point of the path `p`: descending along
`p`, every node met (including the endpoint) is a directory, until the
path leaves the existing tree.  This is exactly the success condition of
`fs::create_dir_all` with all permissions granted. -/
def noFileBlocks : Entry → List String → Bool
  | .file _, _ => false
  | .dir _, [] => true
  | .dir es, n :: p =>
      match findE es n with
      | some c => noFileBlocks c p
      | none => true

/-!
Path components (the `std::path` semantics the backup arm relies on).

A path string is modelled after splitting on `/`: `RPath` records whether the
string began with a separator and the list of raw pieces between separators
(so `"a//b"` is `⟨false, ["a", "", "b"]⟩`; distinct strings give distinct
values).  `rustComponents` reproduces `Path::components()` on Unix: empty
pieces collapse, `"."` pieces vanish except a leading one on a relative
path, `".."` is `ParentDir`, and a leading separator is `RootDir`.
-/

/-- A parsed path: absolute flag plus raw `/`-separated pieces. -/
structure RPath where
  abs : Bool
  segs : List String
  deriving DecidableEq

/-- A single path component as produced by `Path::components()`. -/
inductive Comp where
  | rootDir : Comp
  | curDir : Comp
  | parentDir : Comp
  | normal (s : String) : Comp
  deriving DecidableEq

/-- Classify a non-empty, non-`"."` piece. -/
def toComp (s : String) : Comp :=
  if s = ".." then .parentDir else .normal s

/-- The body pieces that survive normalization. -/
def cleanSegs (segs : List String) : List String :=
  segs.filter fun s => !(s = "" || s = ".")

/-- Model of `Path::components()` for the modelled path. -/
def rustComponents (p : RPath) : List Comp :=
  if p.abs then
    .rootDir :: (cleanSegs p.segs).map toComp
  else if p.segs.head? = some "." then
    .curDir :: (cleanSegs p.segs).map toComp
  else
    (cleanSegs p.segs).map toComp

/-- Search a component list from the end for the first `Normal` component. -/
def lastNorm : List Comp → Option String
  | [] => none
  | c :: rest =>
      match lastNorm rest with
      | some s => some s
      | none =>
          match c with
          | .normal s => some s
          | _ => none

/-- The `relative_path` extraction from the backup arm (src/main.rs lines
556-567): walk the components from the end, return the first `Normal` one
as a single-segment relative path, or the empty path when there is none. -/
def lastNormalComponent (p : RPath) : RPath :=
  match lastNorm (rustComponents p) with
  | some s => ⟨false, [s]⟩
  | none => ⟨false, []⟩

/-- The same extraction viewed as filesystem path segments (used to build
the destination inside the profile directory). -/
def lastNormalSegs (segs : List String) : List String :=
  (lastNormalComponent ⟨true, segs⟩).segs

/-!
Configuration model.

`FuxiConfig` mirrors the Rust struct (src/cfg.rs lines 7-16, src/main.rs
lines 11-20); profile path lists and path-valued fields hold `RPath` values
(the parsed form of the stored path strings; parsing is injective on them).
Profile maps are association lists standing for the `HashMap`.

The on-disk file is modelled at the interface of the external TOML
libraries (the spec treats serialization as an external collaborator):
a file is absent, fails TOML parsing, parses but does not deserialize into
`FuxiConfig`, or deserializes to a record — in the last case a flag records
whether the bytes are exactly `toml::to_string_pretty` of that record
(many distinct byte strings — formatting, key order, unknown keys —
deserialize to the same record; only one is canonical).
-/

/-- The persisted configuration record. -/
structure FuxiConfig where
  platform : Option String
  selected_profile : Option String
  profiles : Option (List (String × List RPath))
  last_backup_id : Option String
  backup_repo_path : Option RPath
  github_repo : Option String
  git_branch : String
  deriving DecidableEq

/-- Model of the `Default` impl for the record (src/cfg.rs lines 27-39); `os` is
`env::consts::OS`. -/
def defaultFuxiConfig (os : String) : FuxiConfig :=
  { platform := some os
    selected_profile := none
    profiles := none
    last_backup_id := none
    backup_repo_path := none
    github_repo := none
    git_branch := "main" }

/-- The state of the on-disk configuration file, at the interface of the
TOML parse/deserialize pipeline. -/
inductive ConfigFile where
  | absent : ConfigFile
  | invalidToml (raw : Nat) : ConfigFile
  | wrongShape (raw : Nat) : ConfigFile
  | wellFormed (cfg : FuxiConfig) (canonical : Bool) : ConfigFile
  deriving DecidableEq

/-- Errors produced by the modelled commands. -/
inductive CmdErr where
  | loadFailed : CmdErr
  | noProfileSelected : CmdErr
  | emptyProfileSelected : CmdErr
  | repoNotSet : CmdErr
  | githubNotSet : CmdErr
  | noProfile : CmdErr
  | noPaths : CmdErr
  | noLastBackupId : CmdErr
  | copyErr (e : Err) : CmdErr

/-- Model of `load_config` (src/cfg.rs lines 51-75, src/main.rs lines 197-221): an
absent file builds an empty config whose deserialization fails, so the
default is returned; a file that fails TOML parsing makes `builder.build()?`
propagate an error; a file that parses but does not deserialize falls back
to the default; a well-formed file yields its record.  (Discovery of the
configuration directory is modelled as always succeeding.) -/
def load_config (os : String) : ConfigFile → Except CmdErr FuxiConfig
  | .absent => .ok (defaultFuxiConfig os)
  | .invalidToml _ => .error .loadFailed
  | .wrongShape _ => .ok (defaultFuxiConfig os)
  | .wellFormed c _ => .ok c

/-- Model of `save_config` (src/cfg.rs lines 77-82, src/main.rs lines 223-228):
whole-file rewrite with `toml::to_string_pretty`, i.e. the canonical bytes
of the record. -/
def serializeCfg (c : FuxiConfig) : ConfigFile :=
  .wellFormed c true

/-- Assoc-list lookup standing for `HashMap::get`. -/
def findA {α : Type} : List (String × α) → String → Option α
  | [], _ => none
  | (m, v) :: rest, n => if m = n then some v else findA rest n

/-- Assoc-list membership standing for `HashMap::contains_key`. -/
def hasA {α : Type} (l : List (String × α)) (n : String) : Bool :=
  (findA l n).isSome

/-- Assoc-list update standing for writing through a `HashMap` entry. -/
def upsertA {α : Type} : List (String × α) → String → α → List (String × α)
  | [], n, v => [(n, v)]
  | (m, x) :: rest, n, v =>
      if m = n then (m, v) :: rest else (m, x) :: upsertA rest n v

/-- Assoc-list removal standing for `HashMap::remove`. -/
def eraseA {α : Type} (l : List (String × α)) (n : String) : List (String × α) :=
  l.filter fun x => !(x.1 = n)

/-- Messages printed by the modelled commands. -/
inductive Msg where
  | added (p : RPath) : Msg
  | alreadyExists (p : RPath) : Msg
  | updatedOk : Msg
  | profileCreated (n : String) : Msg
  | profileAlreadyExists (n : String) : Msg
  | nowSelected (n : String) : Msg
  | noProfilesAvailable : Msg
  | switched (n : String) : Msg
  | profileNotFound (n : String) : Msg
  | profileDeleted (n : String) : Msg
  deriving DecidableEq

/-- One step of the `path add` loop (src/main.rs lines 248-257). -/
def addOne (acc : List RPath × List Msg) (p : RPath) : List RPath × List Msg :=
  if p ∈ acc.1 then (acc.1, acc.2 ++ [.alreadyExists p])
  else (acc.1 ++ [p], acc.2 ++ [.added p])

/-- Model of `add_paths` (src/main.rs lines 230-262): load the config from disk,
require a non-empty selected profile, materialize the profile map and the
selected profile's entry, append each new path not already present, then
unconditionally `save_config` the (possibly unchanged) record. -/
def add_paths (os : String) (disk : ConfigFile) (newPaths : List RPath) :
    Except CmdErr (ConfigFile × List Msg) :=
  match load_config os disk with
  | .error e => .error e
  | .ok cfg =>
      match cfg.selected_profile with
      | none => .error .noProfileSelected
      | some selected =>
          if selected = "" then .error .emptyProfileSelected
          else
            let profs0 := cfg.profiles.getD []
            let vec0 := (findA profs0 selected).getD []
            let profs1 :=
              if hasA profs0 selected then profs0 else profs0 ++ [(selected, [])]
            let r := newPaths.foldl addOne (vec0, [])
            let cfg' := { cfg with profiles := some (upsertA profs1 selected r.1) }
            .ok (serializeCfg cfg', r.2 ++ [.updatedOk])

/-- Model of `get_selected_profile_paths` (src/main.rs lines 332-341). -/
def get_selected_profile_paths (cfg : FuxiConfig) : List RPath :=
  match cfg.selected_profile with
  | none => []
  | some sel =>
      match cfg.profiles with
      | none => []
      | some profs => (findA profs sel).getD []

/-- The `profile create` arm (src/main.rs lines 418-441), including the
"first profile becomes selected" step that runs even on the
already-exists branch. -/
def profile_create (cfg : FuxiConfig) (name : String) : FuxiConfig × List Msg :=
  let profs0 := cfg.profiles.getD []
  let r :=
    if hasA profs0 name then
      ({ cfg with profiles := some profs0 }, [Msg.profileAlreadyExists name])
    else
      ({ cfg with profiles := some (profs0 ++ [(name, [])]) },
        [Msg.profileCreated name])
  if (r.1.profiles.getD []).length = 1 then
    ({ r.1 with selected_profile := some name }, r.2 ++ [.nowSelected name])
  else r

/-- The `profile select` arm (src/main.rs lines 443-463); note the
dispatcher matches the literal string `"select"`. -/
def profile_select (cfg : FuxiConfig) (name : String) : FuxiConfig × List Msg :=
  match cfg.profiles with
  | none => (cfg, [.noProfilesAvailable])
  | some profs =>
      if hasA profs name then
        ({ cfg with selected_profile := some name }, [.switched name])
      else (cfg, [.profileNotFound name])

/-- The `profile delete` arm (src/main.rs lines 465-488), including the
redundant second `remove` on the selected-profile branch (line 480). -/
def profile_delete (cfg : FuxiConfig) (name : String) : FuxiConfig × List Msg :=
  match cfg.profiles with
  | none => (cfg, [.profileNotFound name])
  | some profs =>
      if hasA profs name then
        let profs1 := eraseA profs name
        if cfg.selected_profile = some name then
          ({ cfg with selected_profile := none, profiles := some (eraseA profs1 name) },
            [.profileDeleted name])
        else
          ({ cfg with profiles := some profs1 }, [.profileDeleted name])
      else (cfg, [.profileNotFound name])

/-- Outcome of dispatching a `profile` subcommand. -/
inductive POut where
  | done (cfg : FuxiConfig) (msgs : List Msg) : POut
  | panicked : POut
  deriving DecidableEq

/-- The `profile` dispatch (src/main.rs lines 405-490): the handled
subcommand names are `"list"`, `"create"`, `"select"`, `"delete"`; every
other name falls into the `_ => unreachable!()` arm, which panics. -/
def profile_dispatch (cfg : FuxiConfig) (sub name : String) : POut :=
  match sub with
  | "list" => .done cfg []
  | "create" => .done (profile_create cfg name).1 (profile_create cfg name).2
  | "select" => .done (profile_select cfg name).1 (profile_select cfg name).2
  | "delete" => .done (profile_delete cfg name).1 (profile_delete cfg name).2
  | _ => .panicked

/-- The `profile` subcommand names declared by `cli()` (src/main.rs lines
66-85, src/cli.rs lines 38-57): clap accepts exactly these. -/
def profile_cli_subcommands : List String :=
  ["list", "create", "switch", "delete"]

/-- The filesystem path denoted by a parsed path string (normalized
component names; `.` and empty pieces vanish — `..` does not occur in the
paths the claims exercise). -/
def RPath.fsSegs (p : RPath) : List String :=
  cleanSegs p.segs

/-- Model of `update_last_backup_id` (src/main.rs lines 312-317): reload the config
from disk, set the identifier, save. -/
def update_last_backup_id (os : String) (disk : ConfigFile) (id : String) :
    Except CmdErr ConfigFile :=
  match load_config os disk with
  | .error e => .error e
  | .ok c => .ok (serializeCfg { c with last_backup_id := some id })

/-- The per-path loop of the backup arm (src/main.rs lines 546-578): skip
(with a warning) registered paths that do not exist, otherwise copy the
path to `repo/<profile>/<last normal component>`. -/
def backupPaths (w : List String → Bool) (rp : List String) (prof : String) :
    List RPath → Entry → Except Err Entry
  | [], fs => .ok fs
  | p :: rest, fs =>
      if (lookupFs fs p.fsSegs).isSome then
        match copy_file_or_path_main w fs p.fsSegs
            (rp ++ [prof] ++ (lastNormalComponent p).segs) with
        | .error e => .error e
        | .ok fs' => backupPaths w rp prof rest fs'
      else backupPaths w rp prof rest fs

/-- The per-path loop of the monolithic apply arm (src/main.rs lines
609-622): skip (with a warning) live paths that do not exist, otherwise
copy the whole repository directory onto the live path. -/
def applyPathsMain (w : List String → Bool) (rp : List String) :
    List RPath → Entry → Except Err Entry
  | [], fs => .ok fs
  | p :: rest, fs =>
      if (lookupFs fs p.fsSegs).isSome then
        match copy_file_or_path_main w fs rp p.fsSegs with
        | .error e => .error e
        | .ok fs' => applyPathsMain w rp rest fs'
      else applyPathsMain w rp rest fs

/-- The `backup` arm (src/main.rs lines 521-582): persist the fresh backup
identifier first, then check the repository / GitHub / profile / path
preconditions, then run the copies.  State is (config file on disk,
filesystem); the in-memory `cfg` is the record loaded at process start. -/
def backup_arm (os : String) (w : List String → Bool) (cfg : FuxiConfig)
    (newId : String) (st : ConfigFile × Entry) :
    (ConfigFile × Entry) × Except CmdErr Unit :=
  match update_last_backup_id os st.1 newId with
  | .error e => (st, .error e)
  | .ok disk1 =>
      match cfg.backup_repo_path with
      | none => ((disk1, st.2), .error .repoNotSet)
      | some rp =>
          if cfg.github_repo.isNone then ((disk1, st.2), .error .githubNotSet)
          else
            match cfg.selected_profile with
            | none => ((disk1, st.2), .error .noProfile)
            | some prof =>
                let paths := get_selected_profile_paths cfg
                if paths.isEmpty then ((disk1, st.2), .error .noPaths)
                else
                  match backupPaths w rp.fsSegs prof paths st.2 with
                  | .ok fs' => ((disk1, fs'), .ok ())
                  | .error e => ((disk1, st.2), .error (.copyErr e))

/-- The monolithic `apply` arm (src/main.rs lines 583-625): persist the
given identifier first, check the repository path, pull (whose failure is
only printed — `gitOk` models the subprocess outcome and does not abort),
then run the wholesale copies. -/
def apply_arm (os : String) (w : List String → Bool) (gitOk : Bool)
    (cfg : FuxiConfig) (id : String) (st : ConfigFile × Entry) :
    (ConfigFile × Entry) × Except CmdErr Unit :=
  match update_last_backup_id os st.1 id with
  | .error e => (st, .error e)
  | .ok disk1 =>
      match cfg.backup_repo_path with
      | none => ((disk1, st.2), .error .repoNotSet)
      | some rp =>
          let _pullReported := gitOk
          let paths := get_selected_profile_paths cfg
          if paths.isEmpty then ((disk1, st.2), .error .noPaths)
          else
            match applyPathsMain w rp.fsSegs paths st.2 with
            | .ok fs' => ((disk1, fs'), .ok ())
            | .error e => ((disk1, st.2), .error (.copyErr e))

/-!
Effectful model of src/copy.rs.

A computation reads a fixed environment (whether the platform is Unix, the
permission environment, and the stream of answers typed at `confirm`
prompts) and threads a world (the filesystem and the count of prompts asked
so far).  Besides its result it produces the list of retry events: each
time a directory-creation or copy step fails, one event records the
original error and what happened at that retry site (no prompt on
non-Unix, prompt declined, or the elevated subprocess run and its result).
-/

/-- Environment of a copy computation. -/
structure CopyEnv where
  unix : Bool
  writable : List String → Bool
  answers : Nat → Bool

/-- Mutable world of a copy computation. -/
structure World where
  fs : Entry
  k : Nat

/-- What happened at one failing directory-creation or copy step. -/
inductive RAct where
  | noRetry : RAct
  | declined : RAct
  | elevDone (r : Except Err Unit) : RAct

/-- A retry event: the original error plus the action taken. -/
structure Ev where
  orig : Err
  act : RAct

/-- Copy computations. -/
def M (α : Type) : Type :=
  CopyEnv → World → World × List Ev × Except Err α

/-- Pure computation. -/
def pureM {α : Type} (a : α) : M α := fun _ w => (w, [], .ok a)

/-- Sequencing; errors short-circuit, traces concatenate. -/
def bindM {α β : Type} (m : M α) (f : α → M β) : M β := fun env w =>
  match m env w with
  | (w1, t1, .error e) => (w1, t1, .error e)
  | (w1, t1, .ok a) =>
      match f a env w1 with
      | (w2, t2, r) => (w2, t1 ++ t2, r)

/-- Lift a pure filesystem operation (given the permission environment). -/
def liftFs (f : (List String → Bool) → Entry → Except Err Entry) : M Unit := fun env w =>
  match f env.writable w.fs with
  | .ok fs' => (⟨fs', w.k⟩, [], .ok ())
  | .error e => (w, [], .error e)

/-- Read the node at a path (`Path::is_dir` / `read_dir` view). -/
def readTree (p : List String) : M (Option Entry) := fun _ w =>
  (w, [], .ok (lookupFs w.fs p))

/-- Model of `sudo mkdir -p p` (src/copy.rs lines 22-29, 66-73, 150-159): the same
directory creation run as root (all permissions granted); a non-zero exit
status — a structural failure — becomes the `sudo mkdir failed` error. -/
def sudoMkdirPrim (fs : Entry) (p : List String) : Except Err Entry :=
  match mkAll (fun _ => true) fs [] p with
  | .ok fs' => .ok fs'
  | .error _ => .error (.sudoMkdirFailed p)

/-- Model of `sudo cp -a src dst` (src/copy.rs lines 31-46): run as root; when the
destination is an existing directory, `cp` places the source under its own
base name inside it, otherwise at the destination itself; a failure (e.g.
missing source or missing destination parent) becomes the `sudo cp failed`
error.  (Directory merging by `cp -a` is approximated by subtree
replacement; no claim depends on elevated-copy contents.) -/
def sudoCpPrim (fs : Entry) (src dst : List String) : Except Err Entry :=
  match lookupFs fs src with
  | none => .error (.sudoCpFailed src dst)
  | some node =>
      match lookupFs fs dst with
      | some (.dir _) =>
          match src.getLast? with
          | some b =>
              match setPath fs (dst ++ [b]) node with
              | some fs' => .ok fs'
              | none => .error (.sudoCpFailed src dst)
          | none => .error (.sudoCpFailed src dst)
      | _ =>
          match setPath fs dst node with
          | some fs' => .ok fs'
          | none => .error (.sudoCpFailed src dst)

/-- Elevated `mkdir -p` as a computation. -/
def sudoMkdirM (p : List String) : M Unit :=
  liftFs fun _ fs => sudoMkdirPrim fs p

/-- Model of `sudo_copy` (src/copy.rs lines 20-47): `sudo mkdir -p` on the
destination's parent (when it has one), then `sudo cp -a`. -/
def sudo_copy (src dst : List String) : M Unit :=
  bindM
    (if dst = [] then pureM ()
     else liftFs fun _ fs => sudoMkdirPrim fs dst.dropLast)
    fun _ => liftFs fun _ fs => sudoCpPrim fs src dst

/-- The retry pattern inlined at every failing step of
`copy_file_or_path` (src/copy.rs lines 58-79, 88-101, 103-116, 122-135,
142-165, 171-185): on Unix ask for confirmation, run the elevated action
on "yes" and propagate its result, return the original error on "no"; off
Unix return the original error at once.  One event records the outcome. -/
def elevate (e : Err) (elev : M Unit) : M Unit := fun env w =>
  if env.unix then
    if env.answers w.k then
      match elev env ⟨w.fs, w.k + 1⟩ with
      | (w2, t, .ok _) => (w2, t ++ [⟨e, .elevDone (.ok ())⟩], .ok ())
      | (w2, t, .error e') => (w2, t ++ [⟨e, .elevDone (.error e')⟩], .error e')
    else (⟨w.fs, w.k + 1⟩, [⟨e, .declined⟩], .error e)
  else (w, [⟨e, .noRetry⟩], .error e)

/-- Run a step; on failure enter the retry pattern with the given elevated
action. -/
def withRetry (m elev : M Unit) : M Unit := fun env w =>
  match m env w with
  | (w1, t1, .ok a) => (w1, t1, .ok a)
  | (w1, t1, .error e) =>
      match elevate e elev env w1 with
      | (w2, t2, r) => (w2, t1 ++ t2, r)

/-- Model of `fs::create_dir_all` as a computation. -/
def mkdirAllM (p : List String) : M Unit :=
  liftFs fun wr fs => createDirAllP wr fs p

/-- Model of `fs::copy` as a computation. -/
def copyFileM (src dst : List String) : M Unit :=
  liftFs fun wr fs => copyF wr fs src dst

/-- Model of `copy_dir_recursive` as a computation (subtree snapshot `es`). -/
def copyDirRecM (es : List (String × Entry)) (dst : List String) : M Unit :=
  liftFs fun wr fs => copy_dir_recursive wr es fs dst

/-- The flatten loop of `copy_file_or_path` (src/copy.rs lines 82-118):
copy each direct child of the source into the destination, directories via
`copy_dir_recursive` and files via `fs::copy`, each step retryable with
`sudo_copy` of that child. -/
def copyChildren (src dst : List String) : List (String × Entry) → M Unit
  | [] => pureM ()
  | (n, c) :: rest =>
      bindM
        (match c with
         | .dir es' =>
             withRetry (copyDirRecM es' (dst ++ [n]))
               (sudo_copy (src ++ [n]) (dst ++ [n]))
         | .file _ =>
             withRetry (copyFileM (src ++ [n]) (dst ++ [n]))
               (sudo_copy (src ++ [n]) (dst ++ [n])))
        fun _ => copyChildren src dst rest

/-- Model of `copy_file_or_path(src, dst, folder_contents)` (src/copy.rs lines
49-188).  For a source directory: with `folder_contents` create the
destination (retry: `sudo mkdir -p dst`) and merge each direct child into
it; without it, one recursive directory copy (retry: `sudo_copy src dst`).
For anything else: create the destination's parent (retry: elevated
mkdir), then `fs::copy` (retry: `sudo_copy src dst`). -/
def copy_file_or_path (src dst : List String) (folder_contents : Bool) : M Unit :=
  bindM (readTree src) fun t =>
    match t with
    | some (.dir es) =>
        if folder_contents then
          bindM (withRetry (mkdirAllM dst) (sudoMkdirM dst))
            fun _ => copyChildren src dst es
        else
          withRetry (copyDirRecM es dst) (sudo_copy src dst)
    | _ =>
        bindM
          (if dst = [] then pureM ()
           else withRetry (mkdirAllM dst.dropLast) (sudoMkdirM dst.dropLast))
          fun _ => withRetry (copyFileM src dst) (sudo_copy src dst)

/-- The per-path body of the backup arm (src/main.rs lines 546-577) using
the canonical synchronizer: skip a missing source with a warning,
otherwise copy it to `repo/<profile>/<last normal component>` with
`folder_contents = false`. -/
def backupStep (repo : List String) (prof : String) (srcp : List String) : M Unit :=
  bindM (readTree srcp) fun t =>
    match t with
    | none => pureM ()
    | some _ => copy_file_or_path srcp (repo ++ [prof] ++ lastNormalSegs srcp) false

/-- Modelled from the spec: the per-path body of the apply direction of
the modular dispatcher, which is not present under src/ (the monolithic
apply arm instead copies the repository wholesale, the historical
regression spec §9 excludes).  Per spec §3/§4.1: each registered path is
restored from `repo/<profile>/<last normal component>` onto the live path
with `folder_contents = true`, skipping (with a warning) live paths that
do not exist. -/
def applyStepSpec (repo : List String) (prof : String) (srcp : List String) : M Unit :=
  bindM (readTree srcp) fun t =>
    match t with
    | none => pureM ()
    | some _ => copy_file_or_path (repo ++ [prof] ++ lastNormalSegs srcp) srcp true

/-- Back up one registered path, then apply it back (the C1 round trip). -/
def roundTrip (repo : List String) (prof : String) (srcp : List String) : M Unit :=
  bindM (backupStep repo prof srcp) fun _ => applyStepSpec repo prof srcp

/-- Apply one registered path with the canonical synchronizer (flatten
restore), used by the modelled dispatcher below. -/
def applyFlatPaths (rp : List String) (prof : String) : List RPath → M Unit
  | [] => pureM ()
  | p :: rest =>
      bindM (applyStepSpec rp prof p.fsSegs) fun _ => applyFlatPaths rp prof rest

/-- Modelled from the spec: the `apply` arm of the modular dispatcher,
which is not present under src/ (only its clap declaration, src/cli.rs
lines 75-80, is).  Per spec §4.4/§8: the argument `"latest"` resolves
through `last_backup_id` and then the existing backups; with neither
available the command fails with the "no last backup ID" error before any
mutation.  A resolved identifier is persisted first
(`update_last_backup_id`), then the repository is checked, the pull
outcome is only reported, and each registered path is restored with the
flatten synchronizer. -/
def apply_latest (os : String) (env : CopyEnv) (gitOk : Bool) (cfg : FuxiConfig)
    (backups : List String) (id : String) (st : ConfigFile × World) :
    (ConfigFile × World) × Except CmdErr Unit :=
  let resolved :=
    if id = "latest" then
      match cfg.last_backup_id with
      | some b => some b
      | none => backups.head?
    else some id
  match resolved with
  | none => (st, .error .noLastBackupId)
  | some rid =>
      match update_last_backup_id os st.1 rid with
      | .error e => (st, .error e)
      | .ok disk1 =>
          match cfg.backup_repo_path with
          | none => ((disk1, st.2), .error .repoNotSet)
          | some rp =>
              let _pullReported := gitOk
              match cfg.selected_profile with
              | none => ((disk1, st.2), .error .noProfile)
              | some prof =>
                  let paths := get_selected_profile_paths cfg
                  if paths.isEmpty then ((disk1, st.2), .error .noPaths)
                  else
                    match applyFlatPaths rp.fsSegs prof paths env st.2 with
                    | (w', _, .ok _) => ((disk1, w'), .ok ())
                    | (w', _, .error e) => ((disk1, w'), .error (.copyErr e))

/-!
Lemmas about the filesystem model.
-/

theorem findE_upsertE_self (es : List (String × Entry)) (n : String) (v : Entry) :
    findE (upsertE es n v) n = some v := by
  induction es with
  | nil => simp [upsertE, findE]
  | cons h rest ih =>
      obtain ⟨m, e⟩ := h
      by_cases hm : m = n
      · simp [upsertE, hm, findE]
      · simp [upsertE, hm, findE, ih]

theorem findE_upsertE_ne (es : List (String × Entry)) (n m : String) (v : Entry)
    (h : m ≠ n) : findE (upsertE es n v) m = findE es m := by
  induction es with
  | nil => simp [upsertE, findE, h, Ne.symm h]
  | cons hd rest ih =>
      obtain ⟨a, e⟩ := hd
      by_cases ha : a = n
      · subst ha
        simp [upsertE, findE, Ne.symm h]
      · simp [upsertE, ha, findE, ih]

theorem upsertE_of_findE (es : List (String × Entry)) (n : String) (v : Entry)
    (h : findE es n = some v) : upsertE es n v = es := by
  induction es with
  | nil => simp [findE] at h
  | cons hd rest ih =>
      obtain ⟨m, e⟩ := hd
      by_cases hm : m = n
      · subst hm
        simp [findE] at h
        simp [upsertE, h]
      · simp [findE, hm] at h
        simp [upsertE, hm, ih h]

theorem upsertE_of_findE_none (es : List (String × Entry)) (n : String) (v : Entry)
    (h : findE es n = none) : upsertE es n v = es ++ [(n, v)] := by
  induction es with
  | nil => simp [upsertE]
  | cons hd rest ih =>
      obtain ⟨m, e⟩ := hd
      by_cases hm : m = n
      · simp [findE, hm] at h
      · simp [findE, hm] at h
        simp [upsertE, hm, ih h]

theorem lookupFs_append (fs : Entry) (p q : List String) :
    lookupFs fs (p ++ q) = (lookupFs fs p).bind fun e => lookupFs e q := by
  induction p generalizing fs with
  | nil => simp [lookupFs]
  | cons n p' ih =>
      cases fs with
      | file d => simp [lookupFs]
      | dir es =>
          simp only [List.cons_append, lookupFs]
          cases findE es n with
          | none => simp
          | some c => simpa using ih c

theorem lookupFs_ancestor (fs : Entry) (p : List String) (n : String) (e : Entry)
    (h : lookupFs fs (p ++ [n]) = some e) :
    ∃ es, lookupFs fs p = some (.dir es) ∧ findE es n = some e := by
  rw [lookupFs_append] at h
  cases hx : lookupFs fs p with
  | none => simp [hx] at h
  | some x =>
      rw [hx] at h
      cases x with
      | file d => simp [lookupFs] at h
      | dir es =>
          refine ⟨es, rfl, ?_⟩
          cases hf : findE es n with
          | none => simp [lookupFs, hf] at h
          | some c =>
              simp [lookupFs, hf] at h
              rw [h]

theorem upsertE_upsertE (es : List (String × Entry)) (n : String) (a b : Entry) :
    upsertE (upsertE es n a) n b = upsertE es n b := by
  induction es with
  | nil => simp [upsertE]
  | cons hd rest ih =>
      obtain ⟨m, e⟩ := hd
      by_cases hm : m = n
      · simp [upsertE, hm]
      · simp [upsertE, hm, ih]

theorem lookupFs_nil (e : Entry) : lookupFs e [] = some e := by
  cases e <;> rfl

theorem setPath_nil (fs v : Entry) : setPath fs [] v = some v := by
  cases fs <;> rfl

theorem exists_cons_append (p : List String) (n : String) :
    ∃ b q, p ++ [n] = b :: q := by
  cases p with
  | nil => exact ⟨n, [], rfl⟩
  | cons a r => exact ⟨a, r ++ [n], rfl⟩

theorem lookup_setPath_self (p : List String) (fs fs' v : Entry)
    (h : setPath fs p v = some fs') : lookupFs fs' p = some v := by
  induction p generalizing fs fs' with
  | nil =>
      rw [setPath_nil] at h
      simp at h
      subst h
      exact lookupFs_nil v
  | cons n p' ih =>
      cases fs with
      | file d => simp [setPath] at h
      | dir es =>
          cases p' with
          | nil =>
              simp [setPath] at h
              subst h
              simp [lookupFs, findE_upsertE_self]
          | cons m p'' =>
              cases hf : findE es n with
              | none => simp [setPath, hf] at h
              | some c =>
                  cases hs : setPath c (m :: p'') v with
                  | none => simp [setPath, hf, hs] at h
                  | some c' =>
                      simp [setPath, hf, hs] at h
                      subst h
                      simp [lookupFs, findE_upsertE_self]
                      exact ih _ _ hs

theorem lookup_setPath_frame (p : List String) (fs fs' v : Entry)
    (h : setPath fs p v = some fs') (q : List String)
    (hq1 : pfxB q p = false) (hq2 : pfxB p q = false) :
    lookupFs fs' q = lookupFs fs q := by
  induction p generalizing fs fs' q with
  | nil => simp [pfxB] at hq2
  | cons n p' ih =>
      cases fs with
      | file d => simp [setPath] at h
      | dir es =>
          cases q with
          | nil => simp [pfxB] at hq1
          | cons m q' =>
              by_cases hm : m = n
              · subst hm
                simp only [pfxB, if_pos rfl] at hq1 hq2
                cases p' with
                | nil => simp [pfxB] at hq2
                | cons a p'' =>
                    cases hf : findE es m with
                    | none => simp [setPath, hf] at h
                    | some c =>
                        cases hs : setPath c (a :: p'') v with
                        | none => simp [setPath, hf, hs] at h
                        | some c' =>
                            simp [setPath, hf, hs] at h
                            subst h
                            simp [lookupFs, findE_upsertE_self, hf]
                            exact ih _ _ hs q' hq1 hq2
              · cases p' with
                | nil =>
                    simp [setPath] at h
                    subst h
                    simp [lookupFs, findE_upsertE_ne _ _ _ _ hm]
                | cons a p'' =>
                    cases hf : findE es n with
                    | none => simp [setPath, hf] at h
                    | some c =>
                        cases hs : setPath c (a :: p'') v with
                        | none => simp [setPath, hf, hs] at h
                        | some c' =>
                            simp [setPath, hf, hs] at h
                            subst h
                            simp [lookupFs, findE_upsertE_ne _ _ _ _ hm]

theorem setPath_of_lookup (p : List String) (fs e v : Entry)
    (h : lookupFs fs p = some e) : ∃ fs', setPath fs p v = some fs' := by
  induction p generalizing fs e with
  | nil => exact ⟨v, setPath_nil fs v⟩
  | cons n p' ih =>
      cases fs with
      | file d => simp [lookupFs] at h
      | dir es =>
          simp only [lookupFs] at h
          cases hf : findE es n with
          | none => simp [hf] at h
          | some c =>
              simp [hf] at h
              cases p' with
              | nil => exact ⟨Entry.dir (upsertE es n v), by simp [setPath]⟩
              | cons a p'' =>
                  obtain ⟨c', hc'⟩ := ih c e h
                  exact ⟨Entry.dir (upsertE es n c'),
                    by simp [setPath, hf, hc']⟩

theorem setPath_create (p : List String) (n : String) (fs v : Entry)
    (es : List (String × Entry)) (h : lookupFs fs p = some (.dir es)) :
    ∃ fs', setPath fs (p ++ [n]) v = some fs' := by
  induction p generalizing fs es with
  | nil =>
      rw [lookupFs_nil] at h
      simp at h
      subst h
      exact ⟨Entry.dir (upsertE es n v), by simp [setPath]⟩
  | cons m p'' ih =>
      cases fs with
      | file d => simp [lookupFs] at h
      | dir es0 =>
          simp only [lookupFs] at h
          cases hf : findE es0 m with
          | none => simp [hf] at h
          | some c =>
              simp [hf] at h
              obtain ⟨c', hc'⟩ := ih c es h
              obtain ⟨b, q, hbq⟩ := exists_cons_append p'' n
              rw [hbq] at hc'
              refine ⟨Entry.dir (upsertE es0 m c'), ?_⟩
              rw [show (m :: p'') ++ [n] = m :: b :: q by
                rw [List.cons_append, hbq]]
              simp [setPath, hf, hc']

theorem setPath_self (p : List String) (fs v : Entry)
    (h : lookupFs fs p = some v) : setPath fs p v = some fs := by
  induction p generalizing fs with
  | nil =>
      rw [lookupFs_nil] at h
      simp at h
      subst h
      exact setPath_nil _ _
  | cons n p' ih =>
      cases fs with
      | file d => simp [lookupFs] at h
      | dir es =>
          simp only [lookupFs] at h
          cases hf : findE es n with
          | none => simp [hf] at h
          | some c =>
              simp [hf] at h
              cases p' with
              | nil =>
                  rw [lookupFs_nil] at h
                  simp at h
                  subst h
                  simp [setPath, upsertE_of_findE _ _ _ hf]
              | cons a p'' =>
                  simp [setPath, hf, ih c h, upsertE_of_findE _ _ _ hf]

theorem setPath_parent (p : List String) (n : String) (fs fs' v : Entry)
    (es : List (String × Entry)) (h : setPath fs (p ++ [n]) v = some fs')
    (hp : lookupFs fs p = some (.dir es)) :
    lookupFs fs' p = some (.dir (upsertE es n v)) := by
  induction p generalizing fs fs' es with
  | nil =>
      rw [lookupFs_nil] at hp
      simp at hp
      subst hp
      simp [setPath] at h
      subst h
      exact lookupFs_nil _
  | cons m p'' ih =>
      cases fs with
      | file d => simp [lookupFs] at hp
      | dir es0 =>
          simp only [lookupFs] at hp
          cases hf : findE es0 m with
          | none => simp [hf] at hp
          | some c =>
              simp [hf] at hp
              obtain ⟨b, q, hbq⟩ := exists_cons_append p'' n
              rw [show (m :: p'') ++ [n] = m :: b :: q by
                rw [List.cons_append, hbq]] at h
              cases hs : setPath c (b :: q) v with
              | none => simp [setPath, hf, hs] at h
              | some c' =>
                  simp [setPath, hf, hs] at h
                  subst h
                  have hs' : setPath c (p'' ++ [n]) v = some c' := by
                    rw [hbq]; exact hs
                  have hrec := ih c c' es hs' hp
                  simp [lookupFs, findE_upsertE_self]
                  exact hrec

theorem setPath_absorb (p q : List String) (fs fs1 v w : Entry)
    (h : setPath fs (p ++ q) v = some fs1) :
    setPath fs1 p w = setPath fs p w := by
  induction p generalizing fs fs1 with
  | nil => rw [setPath_nil, setPath_nil]
  | cons n p' ih =>
      cases fs with
      | file d => simp [List.cons_append, setPath] at h
      | dir es =>
          cases hpq : p' ++ q with
          | nil =>
              have hp' : p' = [] := by
                cases p' with
                | nil => rfl
                | cons a r => simp at hpq
              subst hp'
              have hq : q = [] := by simpa using hpq
              subst hq
              simp [setPath] at h
              subst h
              simp [setPath, upsertE_upsertE]
          | cons b r =>
              rw [show (n :: p') ++ q = n :: b :: r by
                rw [List.cons_append, hpq]] at h
              cases hf : findE es n with
              | none => simp [setPath, hf] at h
              | some c =>
                  cases hs : setPath c (b :: r) v with
                  | none => simp [setPath, hf, hs] at h
                  | some c' =>
                      simp [setPath, hf, hs] at h
                      subst h
                      have hs' : setPath c (p' ++ q) v = some c' := by
                        rw [hpq]; exact hs
                      have hrec := ih c c' hs'
                      cases p' with
                      | nil => simp [setPath, upsertE_upsertE]
                      | cons pa pr =>
                          cases hw : setPath c (pa :: pr) w with
                          | none =>
                              simp [setPath, findE_upsertE_self, hf, hrec, hw]
                          | some c'' =>
                              simp [setPath, findE_upsertE_self, hf, hrec, hw,
                                upsertE_upsertE]

theorem mkAll_cons_none (w : List String → Bool) (es : List (String × Entry))
    (pre : List String) (n : String) (p : List String)
    (hf : findE es n = none) (hwt : w (pre ++ [n]) = true) :
    mkAll w (.dir es) pre (n :: p) =
      match mkAll w (.dir []) (pre ++ [n]) p with
      | .ok c' => .ok (.dir (upsertE es n c'))
      | .error e => .error e := by
  simp [mkAll, hf, hwt]

theorem mkAll_noop (w : List String → Bool) (p : List String) (fs : Entry)
    (pre : List String) (es : List (String × Entry))
    (h : lookupFs fs p = some (.dir es)) : mkAll w fs pre p = .ok fs := by
  induction p generalizing fs pre es with
  | nil =>
      rw [lookupFs_nil] at h
      simp at h
      subst h
      simp [mkAll]
  | cons n p' ih =>
      cases fs with
      | file d => simp [lookupFs] at h
      | dir es0 =>
          simp only [lookupFs] at h
          cases hf : findE es0 n with
          | none => simp [hf] at h
          | some c =>
              simp [hf] at h
              simp [mkAll, hf, ih c (pre ++ [n]) es h,
                upsertE_of_findE _ _ _ hf]

theorem mkAll_create (w : List String → Bool) (hw : ∀ x, w x = true)
    (p : List String) (fs : Entry) (pre : List String)
    (hnb : noFileBlocks fs p = true) :
    ∃ fs', mkAll w fs pre p = .ok fs' ∧
      (∀ q, pfxB q p = false → lookupFs fs' q = lookupFs fs q) ∧
      (lookupFs fs p = none → lookupFs fs' p = some (.dir [])) ∧
      (∃ es', lookupFs fs' p = some (.dir es')) := by
  induction p generalizing fs pre with
  | nil =>
      cases fs with
      | file d => simp [noFileBlocks] at hnb
      | dir es =>
          refine ⟨.dir es, by simp [mkAll], fun q _ => rfl, ?_, ⟨es, lookupFs_nil _⟩⟩
          intro hnone
          rw [lookupFs_nil] at hnone
          simp at hnone
  | cons n p' ih =>
      cases fs with
      | file d => simp [noFileBlocks] at hnb
      | dir es =>
          simp only [noFileBlocks] at hnb
          cases hf : findE es n with
          | some c =>
              rw [hf] at hnb
              simp at hnb
              obtain ⟨c', hok, hframe, hnone, es', hts⟩ := ih c (pre ++ [n]) hnb
              refine ⟨.dir (upsertE es n c'), by simp [mkAll, hf, hok], ?_, ?_, ?_⟩
              · intro q hq
                cases q with
                | nil => simp [pfxB] at hq
                | cons m q' =>
                    by_cases hm : m = n
                    · subst hm
                      simp only [pfxB, if_pos rfl] at hq
                      simp [lookupFs, findE_upsertE_self, hf]
                      exact hframe q' hq
                    · simp [lookupFs, findE_upsertE_ne _ _ _ _ hm]
              · intro hn
                simp only [lookupFs, hf] at hn
                simp [lookupFs, findE_upsertE_self, hnone hn]
              · exact ⟨es', by simp [lookupFs, findE_upsertE_self, hts]⟩
          | none =>
              rw [hf] at hnb
              cases p' with
              | nil =>
                  refine ⟨.dir (upsertE es n (.dir [])),
                    by simp [mkAll, hf, hw (pre ++ [n])], ?_, ?_, ?_⟩
                  · intro q hq
                    cases q with
                    | nil => simp [pfxB] at hq
                    | cons m q' =>
                        by_cases hm : m = n
                        · subst hm
                          simp only [pfxB, if_pos rfl] at hq
                          cases q' with
                          | nil => simp [pfxB] at hq
                          | cons m' q'' =>
                              simp [lookupFs, findE_upsertE_self, hf, findE]
                        · simp [lookupFs, findE_upsertE_ne _ _ _ _ hm]
                  · intro _
                    simp [lookupFs, findE_upsertE_self, lookupFs_nil]
                  · exact ⟨[], by simp [lookupFs, findE_upsertE_self, lookupFs_nil]⟩
              | cons a p'' =>
                  have hnb' : noFileBlocks (.dir []) (a :: p'') = true := by
                    simp [noFileBlocks, findE]
                  obtain ⟨c', hok, hframe, hnone, es', hts⟩ :=
                    ih (.dir []) (pre ++ [n]) hnb'
                  have hc'p : lookupFs c' (a :: p'') = some (.dir []) := by
                    apply hnone
                    simp [lookupFs, findE]
                  refine ⟨.dir (upsertE es n c'),
                    by rw [mkAll_cons_none w es pre n (a :: p'') hf
                        (hw (pre ++ [n])), hok], ?_, ?_, ?_⟩
                  · intro q hq
                    cases q with
                    | nil => simp [pfxB] at hq
                    | cons m q' =>
                        by_cases hm : m = n
                        · subst hm
                          simp only [pfxB, if_pos rfl] at hq
                          have := hframe q' hq
                          simp [lookupFs, findE_upsertE_self, hf]
                          rw [this]
                          cases q' with
                          | nil => simp [pfxB] at hq
                          | cons m' q'' => simp [lookupFs, findE]
                        · simp [lookupFs, findE_upsertE_ne _ _ _ _ hm]
                  · intro _
                    simp [lookupFs, findE_upsertE_self]
                    exact hc'p
                  · exact ⟨[], by simp [lookupFs, findE_upsertE_self]; exact hc'p⟩

theorem wfB_dir_cons (n : String) (c : Entry) (rest : List (String × Entry)) :
    wfB (.dir ((n, c) :: rest)) = true ↔
      wfB c = true ∧ wfB (.dir rest) = true ∧ keyNotIn n rest = true := by
  simp [wfB, and_assoc]

theorem keyNotIn_mem (n : String) (es : List (String × Entry)) (m : String)
    (c : Entry) (h : keyNotIn n es = true) (hm : (m, c) ∈ es) : m ≠ n := by
  induction es with
  | nil => simp at hm
  | cons hd rest ih =>
      obtain ⟨a, e⟩ := hd
      by_cases ha : a = n
      · simp [keyNotIn, ha] at h
      · simp [keyNotIn, ha] at h
        rcases List.mem_cons.mp hm with h1 | h1
        · cases h1; exact ha
        · exact ih h h1

theorem wf_findE (es : List (String × Entry)) (n : String) (c : Entry)
    (hwf : wfB (.dir es) = true) (hm : (n, c) ∈ es) :
    findE es n = some c ∧ wfB c = true := by
  induction es with
  | nil => simp at hm
  | cons hd rest ih =>
      obtain ⟨a, e⟩ := hd
      rw [wfB_dir_cons] at hwf
      obtain ⟨hwe, hwr, hk⟩ := hwf
      rcases List.mem_cons.mp hm with h1 | h1
      · obtain ⟨h2, h3⟩ := Prod.mk.injEq .. ▸ h1
        subst h2; subst h3
        exact ⟨by simp [findE], hwe⟩
      · have hne := keyNotIn_mem a rest n c hk h1
        obtain ⟨hf, hw⟩ := ih hwr h1
        exact ⟨by simp [findE, hne.symm, hf], hw⟩

theorem pfxB_exists (p q : List String) :
    pfxB p q = true ↔ ∃ r, p ++ r = q := by
  induction p generalizing q with
  | nil => simp [pfxB]
  | cons a p' ih =>
      cases q with
      | nil => simp [pfxB]
      | cons b q' =>
          by_cases hab : a = b
          · subst hab
            simp [pfxB, ih]
          · simp [pfxB, hab]

theorem pfxB_length (p q : List String) (h : pfxB p q = true) :
    p.length ≤ q.length := by
  obtain ⟨r, hr⟩ := (pfxB_exists p q).mp h
  subst hr
  simp

theorem pfxB_append_right (p q r : List String) (h : pfxB p q = true) :
    pfxB p (q ++ r) = true := by
  obtain ⟨s, hs⟩ := (pfxB_exists p q).mp h
  exact (pfxB_exists _ _).mpr ⟨s ++ r, by rw [← hs, List.append_assoc]⟩

theorem pfx_lookup (fs : Entry) (p q : List String) (e : Entry)
    (hpfx : pfxB p q = true) (h : lookupFs fs q = some e) :
    ∃ e', lookupFs fs p = some e' := by
  obtain ⟨r, hr⟩ := (pfxB_exists p q).mp hpfx
  subst hr
  rw [lookupFs_append] at h
  cases hl : lookupFs fs p with
  | none => simp [hl] at h
  | some x => exact ⟨x, rfl⟩

theorem noFileBlocks_of_append (fs : Entry) (p q : List String)
    (h : noFileBlocks fs (p ++ q) = true) : noFileBlocks fs p = true := by
  induction p generalizing fs with
  | nil =>
      cases fs with
      | file d => simp [noFileBlocks] at h
      | dir es => simp [noFileBlocks]
  | cons n p' ih =>
      cases fs with
      | file d => simp [noFileBlocks] at h
      | dir es =>
          simp only [List.cons_append, noFileBlocks] at h ⊢
          cases hf : findE es n with
          | none => simp
          | some c =>
              rw [hf] at h
              simp at h ⊢
              exact ih c h

theorem writeF_eq (w : List String → Bool) (hw : ∀ x, w x = true)
    (fs fs' : Entry) (dst : List String) (d : List Nat)
    (hnd : ∀ es, lookupFs fs dst ≠ some (.dir es))
    (hset : setPath fs dst (.file d) = some fs') :
    writeF w fs dst d = .ok fs' := by
  cases hl : lookupFs fs dst with
  | none => simp [writeF, hl, hw dst, hset]
  | some x =>
      cases x with
      | file dd => simp [writeF, hl, hw dst, hset]
      | dir es => exact absurd hl (hnd es)

theorem copyF_eq (w : List String → Bool) (fs : Entry) (src dst : List String)
    (d : List Nat) (hsrc : lookupFs fs src = some (.file d)) :
    copyF w fs src dst = writeF w fs dst d := by
  simp [copyF, hsrc]

theorem mkAll_one (w : List String → Bool) (hw : ∀ x, w x = true)
    (p : List String) (n : String) (fs : Entry) (pre : List String)
    (acc : List (String × Entry)) (hp : lookupFs fs p = some (.dir acc))
    (hn : findE acc n = none) :
    ∃ fs', mkAll w fs pre (p ++ [n]) = .ok fs' ∧
      setPath fs (p ++ [n]) (.dir []) = some fs' := by
  induction p generalizing fs pre acc with
  | nil =>
      rw [lookupFs_nil] at hp
      simp at hp
      subst hp
      refine ⟨.dir (upsertE acc n (.dir [])), ?_, ?_⟩
      · simp [mkAll, hn, hw ((pre : List String) ++ [n])]
      · simp [setPath]
  | cons m p' ih =>
      cases fs with
      | file d => simp [lookupFs] at hp
      | dir es0 =>
          simp only [lookupFs] at hp
          cases hf : findE es0 m with
          | none => simp [hf] at hp
          | some c =>
              simp [hf] at hp
              obtain ⟨c', hok, hset⟩ := ih c (pre ++ [m]) acc hp hn
              obtain ⟨b, q, hbq⟩ := exists_cons_append p' n
              refine ⟨.dir (upsertE es0 m c'), ?_, ?_⟩
              · simp [List.cons_append, mkAll, hf, hok]
              · rw [show (m :: p') ++ [n] = m :: b :: q by
                  rw [List.cons_append, hbq]]
                rw [hbq] at hset
                simp [setPath, hf, hset]

theorem lookup_child (fs : Entry) (dst : List String)
    (ES : List (String × Entry)) (n : String)
    (h : lookupFs fs dst = some (.dir ES)) :
    lookupFs fs (dst ++ [n]) = findE ES n := by
  rw [lookupFs_append, h]
  cases hf : findE ES n with
  | none => simp [lookupFs, hf]
  | some c => simp [lookupFs, hf, lookupFs_nil]

theorem sizeOf_tail_le (hd : String × Entry) (rest : List (String × Entry))
    (k : Nat) (h : sizeOf (hd :: rest) ≤ k + 1) : sizeOf rest ≤ k := by
  obtain ⟨n, c⟩ := hd
  simp at h
  omega

theorem sizeOf_child_le (n : String) (es' : List (String × Entry))
    (rest : List (String × Entry)) (k : Nat)
    (h : sizeOf ((n, Entry.dir es') :: rest) ≤ k + 1) : sizeOf es' ≤ k := by
  simp at h
  have hn : 0 < sizeOf n := by
    cases n; simp
  omega

theorem copyDirGo_self (w : List String → Bool) (hw : ∀ x, w x = true) :
    ∀ (k : Nat) (es0 : List (String × Entry)), sizeOf es0 ≤ k →
    ∀ (ES : List (String × Entry)) (fs : Entry) (dst : List String),
    (∀ nc ∈ es0, findE ES nc.1 = some nc.2 ∧ wfB nc.2 = true) →
    lookupFs fs dst = some (.dir ES) →
    copyDirGo w es0 fs dst = .ok fs := by
  intro k
  induction k with
  | zero =>
      intro es0 hsz ES fs dst hsub hdst
      cases es0 with
      | nil => simp [copyDirGo]
      | cons hd rest =>
          exfalso
          obtain ⟨n, c⟩ := hd
          simp at hsz
  | succ k ih =>
      intro es0 hsz ES fs dst hsub hdst
      cases es0 with
      | nil => simp [copyDirGo]
      | cons hd rest =>
          obtain ⟨n, c⟩ := hd
          obtain ⟨hfE, hwc⟩ := hsub (n, c) (List.mem_cons_self _ _)
          have hchild : lookupFs fs (dst ++ [n]) = some c := by
            rw [lookup_child fs dst ES n hdst]
            exact hfE
          have hrest : copyDirGo w rest fs dst = .ok fs :=
            ih rest (sizeOf_tail_le _ _ _ hsz) ES fs dst
              (fun nc hm => hsub nc (List.mem_cons_of_mem _ hm)) hdst
          cases c with
          | file d =>
              have hset := setPath_self (dst ++ [n]) fs (.file d) hchild
              have hwr : writeF w fs (dst ++ [n]) d = .ok fs :=
                writeF_eq w hw fs fs (dst ++ [n]) d
                  (fun es hh => by rw [hh] at hchild; simp at hchild) hset
              simp [copyDirGo, hwr, hrest]
          | dir es' =>
              have hnoop := mkAll_noop w (dst ++ [n]) fs [] es' hchild
              have hgo : copyDirGo w es' fs (dst ++ [n]) = .ok fs :=
                ih es' (sizeOf_child_le _ _ _ _ hsz) es' fs (dst ++ [n])
                  (fun nc hm => by
                    obtain ⟨a, b⟩ := nc
                    exact wf_findE es' a b hwc hm) hchild
              simp [copyDirGo, copy_dir_recursive, createDirAllP, hnoop,
                hgo, hrest]

theorem copy_dir_recursive_self (w : List String → Bool) (hw : ∀ x, w x = true)
    (ES : List (String × Entry)) (fs : Entry) (dst : List String)
    (hwf : wfB (.dir ES) = true) (hdst : lookupFs fs dst = some (.dir ES)) :
    copy_dir_recursive w ES fs dst = .ok fs := by
  have h1 := mkAll_noop w dst fs [] ES hdst
  have h2 : copyDirGo w ES fs dst = .ok fs :=
    copyDirGo_self w hw (sizeOf ES) ES le_rfl ES fs dst
      (fun nc hm => by
        obtain ⟨a, b⟩ := nc
        exact wf_findE ES a b hwf hm) hdst
  simp [copy_dir_recursive, createDirAllP, h1, h2]

theorem copyDirGo_fresh (w : List String → Bool) (hw : ∀ x, w x = true) :
    ∀ (k : Nat) (es0 : List (String × Entry)), sizeOf es0 ≤ k →
    ∀ (acc : List (String × Entry)) (fs : Entry) (dst : List String),
    wfB (.dir es0) = true →
    lookupFs fs dst = some (.dir acc) →
    (∀ nc ∈ es0, findE acc nc.1 = none) →
    ∃ fs', copyDirGo w es0 fs dst = .ok fs' ∧
      setPath fs dst (.dir (acc ++ es0)) = some fs' := by
  intro k
  induction k with
  | zero =>
      intro es0 hsz acc fs dst hwf hdst hdisj
      cases es0 with
      | nil =>
          exact ⟨fs, by simp [copyDirGo], by
            simpa using setPath_self dst fs (.dir acc) hdst⟩
      | cons hd rest =>
          exfalso
          obtain ⟨n, c⟩ := hd
          simp at hsz
  | succ k ih =>
      intro es0 hsz acc fs dst hwf hdst hdisj
      cases es0 with
      | nil =>
          exact ⟨fs, by simp [copyDirGo], by
            simpa using setPath_self dst fs (.dir acc) hdst⟩
      | cons hd rest =>
          obtain ⟨n, c⟩ := hd
          rw [wfB_dir_cons] at hwf
          obtain ⟨hwc, hwrest, hkni⟩ := hwf
          have hn : findE acc n = none := hdisj (n, c) (List.mem_cons_self _ _)
          have hfc : lookupFs fs (dst ++ [n]) = none := by
            rw [lookup_child fs dst acc n hdst]; exact hn
          have hdisjrest : ∀ (acc1 : List (String × Entry)) (v : Entry),
              acc1 = upsertE acc n v →
              ∀ nc ∈ rest, findE acc1 nc.1 = none := by
            intro acc1 v hacc1 nc hm
            obtain ⟨a, b⟩ := nc
            have hne := keyNotIn_mem n rest a b hkni hm
            rw [hacc1, findE_upsertE_ne _ _ _ _ hne]
            exact hdisj (a, b) (List.mem_cons_of_mem _ hm)
          cases c with
          | file d =>
              obtain ⟨fs1, hset1⟩ :=
                setPath_create dst n fs (.file d) acc hdst
              have hwr : writeF w fs (dst ++ [n]) d = .ok fs1 :=
                writeF_eq w hw fs fs1 (dst ++ [n]) d
                  (fun es hh => by rw [hh] at hfc; simp at hfc) hset1
              have hdst1 : lookupFs fs1 dst =
                  some (.dir (upsertE acc n (.file d))) :=
                setPath_parent dst n fs fs1 (.file d) acc hset1 hdst
              obtain ⟨fs2, hgo2, hset2⟩ :=
                ih rest (sizeOf_tail_le _ _ _ hsz)
                  (upsertE acc n (.file d)) fs1 dst hwrest hdst1
                  (hdisjrest _ _ rfl)
              refine ⟨fs2, by simp [copyDirGo, hwr, hgo2], ?_⟩
              have habs := setPath_absorb dst [n] fs fs1 (.file d)
                (.dir (upsertE acc n (.file d) ++ rest)) hset1
              rw [habs] at hset2
              rw [upsertE_of_findE_none _ _ _ hn] at hset2
              rw [show acc ++ (n, Entry.file d) :: rest =
                (acc ++ [(n, Entry.file d)]) ++ rest by
                rw [List.append_assoc]; rfl]
              exact hset2
          | dir es' =>
              obtain ⟨fs1, hok1, hset1⟩ :=
                mkAll_one w hw dst n fs [] acc hdst hn
              have hdst1 : lookupFs fs1 (dst ++ [n]) = some (.dir []) :=
                lookup_setPath_self _ _ _ _ hset1
              obtain ⟨fs2, hgo', hset2'⟩ :=
                ih es' (sizeOf_child_le _ _ _ _ hsz) [] fs1 (dst ++ [n])
                  hwc hdst1 (fun nc _ => by simp [findE])
              simp only [List.nil_append] at hset2'
              have habs1 := setPath_absorb (dst ++ [n]) [] fs fs1
                (.dir []) (.dir es') (by simpa using hset1)
              have hsetc : setPath fs (dst ++ [n]) (.dir es') = some fs2 := by
                rw [← habs1]; exact hset2'
              have hdst2 : lookupFs fs2 dst =
                  some (.dir (upsertE acc n (.dir es'))) :=
                setPath_parent dst n fs fs2 (.dir es') acc hsetc hdst
              obtain ⟨fs3, hgo3, hset3⟩ :=
                ih rest (sizeOf_tail_le _ _ _ hsz)
                  (upsertE acc n (.dir es')) fs2 dst hwrest hdst2
                  (hdisjrest _ _ rfl)
              refine ⟨fs3,
                by simp [copyDirGo, createDirAllP, hok1, hgo', hgo3], ?_⟩
              have habs := setPath_absorb dst [n] fs fs2 (.dir es')
                (.dir (upsertE acc n (.dir es') ++ rest)) hsetc
              rw [habs] at hset3
              rw [upsertE_of_findE_none _ _ _ hn] at hset3
              rw [show acc ++ (n, Entry.dir es') :: rest =
                (acc ++ [(n, Entry.dir es')]) ++ rest by
                rw [List.append_assoc]; rfl]
              exact hset3

theorem copy_dir_recursive_fresh (w : List String → Bool) (hw : ∀ x, w x = true)
    (ES : List (String × Entry)) (fs : Entry) (dst : List String)
    (hwf : wfB (.dir ES) = true) (hnb : noFileBlocks fs dst = true)
    (hfresh : lookupFs fs dst = none) :
    ∃ fs2, copy_dir_recursive w ES fs dst = .ok fs2 ∧
      lookupFs fs2 dst = some (.dir ES) ∧
      ∀ q, pfxB q dst = false → pfxB dst q = false →
        lookupFs fs2 q = lookupFs fs q := by
  obtain ⟨fs1, hok, hframe, hnone, _⟩ := mkAll_create w hw dst fs [] hnb
  have hdst1 : lookupFs fs1 dst = some (.dir []) := hnone hfresh
  obtain ⟨fs2, hgo, hset⟩ :=
    copyDirGo_fresh w hw (sizeOf ES) ES le_rfl [] fs1 dst hwf hdst1
      (fun nc _ => by simp [findE])
  simp only [List.nil_append] at hset
  refine ⟨fs2, ?_, ?_, ?_⟩
  · simp [copy_dir_recursive, createDirAllP, hok, hgo]
  · exact lookup_setPath_self _ _ _ _ hset
  · intro q h1 h2
    rw [lookup_setPath_frame dst fs1 fs2 _ hset q h1 h2, hframe q h1]

/-!
Reduction lemmas for successful copy computations.
-/

theorem pureM_val {α : Type} (a : α) (env : CopyEnv) (w : World) :
    pureM a env w = (w, [], .ok a) := rfl

theorem readTree_val (p : List String) (env : CopyEnv) (w : World) :
    readTree p env w = (w, [], .ok (lookupFs w.fs p)) := rfl

theorem liftFs_okE (f : (List String → Bool) → Entry → Except Err Entry)
    (env : CopyEnv) (w : World) (fs' : Entry)
    (h : f env.writable w.fs = .ok fs') :
    liftFs f env w = (⟨fs', w.k⟩, [], .ok ()) := by
  simp [liftFs, h]

theorem withRetry_okE (m elev : M Unit) (env : CopyEnv) (w w' : World)
    (t : List Ev) (h : m env w = (w', t, .ok ())) :
    withRetry m elev env w = (w', t, .ok ()) := by
  simp [withRetry, h]

theorem bindM_okE {α β : Type} (m : M α) (f : α → M β) (env : CopyEnv)
    (w w1 w2 : World) (a : α) (t2 : List Ev) (r : Except Err β)
    (h1 : m env w = (w1, [], .ok a)) (h2 : f a env w1 = (w2, t2, r)) :
    bindM m f env w = (w2, t2, r) := by
  simp [bindM, h1, h2]

theorem copyChildren_self (env : CopyEnv) (hw : ∀ x, env.writable x = true)
    (src dst : List String) :
    ∀ (es0 ES : List (String × Entry)) (fs : Entry) (k : Nat),
    (∀ nc ∈ es0, findE ES nc.1 = some nc.2 ∧ wfB nc.2 = true) →
    lookupFs fs src = some (.dir ES) →
    lookupFs fs dst = some (.dir ES) →
    copyChildren src dst es0 env ⟨fs, k⟩ = (⟨fs, k⟩, [], .ok ()) := by
  intro es0
  induction es0 with
  | nil => intro ES fs k _ _ _; rfl
  | cons hd rest ih =>
      intro ES fs k hsub hsrc hdst
      obtain ⟨n, c⟩ := hd
      obtain ⟨hfE, hwc⟩ := hsub (n, c) (List.mem_cons_self _ _)
      have hsc : lookupFs fs (src ++ [n]) = some c := by
        rw [lookup_child fs src ES n hsrc]; exact hfE
      have hdc : lookupFs fs (dst ++ [n]) = some c := by
        rw [lookup_child fs dst ES n hdst]; exact hfE
      have hrest := ih ES fs k
        (fun nc hm => hsub nc (List.mem_cons_of_mem _ hm)) hsrc hdst
      cases c with
      | file d =>
          have hcf : copyF env.writable fs (src ++ [n]) (dst ++ [n]) = .ok fs := by
            rw [copyF_eq env.writable fs (src ++ [n]) (dst ++ [n]) d hsc]
            exact writeF_eq env.writable hw fs fs (dst ++ [n]) d
              (fun es hh => by rw [hh] at hdc; simp at hdc)
              (setPath_self _ _ _ hdc)
          exact bindM_okE _ _ env ⟨fs, k⟩ ⟨fs, k⟩ ⟨fs, k⟩ () [] (.ok ())
            (withRetry_okE _ _ env ⟨fs, k⟩ ⟨fs, k⟩ []
              (liftFs_okE _ env ⟨fs, k⟩ fs hcf))
            hrest
      | dir es' =>
          have hcd : copy_dir_recursive env.writable es' fs (dst ++ [n]) = .ok fs :=
            copy_dir_recursive_self env.writable hw es' fs (dst ++ [n]) hwc hdc
          exact bindM_okE _ _ env ⟨fs, k⟩ ⟨fs, k⟩ ⟨fs, k⟩ () [] (.ok ())
            (withRetry_okE _ _ env ⟨fs, k⟩ ⟨fs, k⟩ []
              (liftFs_okE _ env ⟨fs, k⟩ fs hcd))
            hrest

theorem cfp_dir_fresh (env : CopyEnv) (hw : ∀ x, env.writable x = true)
    (src dst : List String) (fs : Entry) (k : Nat)
    (ES : List (String × Entry))
    (hsrc : lookupFs fs src = some (.dir ES)) (hwf : wfB (.dir ES) = true)
    (hnb : noFileBlocks fs dst = true) (hfresh : lookupFs fs dst = none) :
    ∃ fs2, copy_file_or_path src dst false env ⟨fs, k⟩ = (⟨fs2, k⟩, [], .ok ()) ∧
      lookupFs fs2 dst = some (.dir ES) ∧
      ∀ q, pfxB q dst = false → pfxB dst q = false →
        lookupFs fs2 q = lookupFs fs q := by
  obtain ⟨fs2, hok, hdst2, hframe⟩ :=
    copy_dir_recursive_fresh env.writable hw ES fs dst hwf hnb hfresh
  refine ⟨fs2, ?_, hdst2, hframe⟩
  show bindM (readTree src) _ env (World.mk fs k) = _
  apply bindM_okE _ _ env ⟨fs, k⟩ ⟨fs, k⟩ ⟨fs2, k⟩ (some (Entry.dir ES)) []
    (.ok ())
  · simp [readTree, hsrc]
  · show withRetry (copyDirRecM ES dst) (sudo_copy src dst) env ⟨fs, k⟩ = _
    exact withRetry_okE _ _ env ⟨fs, k⟩ ⟨fs2, k⟩ []
      (liftFs_okE _ env ⟨fs, k⟩ fs2 hok)

theorem cfp_file_fresh (env : CopyEnv) (hw : ∀ x, env.writable x = true)
    (src dst : List String) (fs : Entry) (k : Nat) (d : List Nat)
    (hsrc : lookupFs fs src = some (.file d))
    (hnb : noFileBlocks fs dst = true) (hfresh : lookupFs fs dst = none)
    (hne : dst ≠ []) (hsp : pfxB src dst = false) :
    ∃ fs2, copy_file_or_path src dst false env ⟨fs, k⟩ = (⟨fs2, k⟩, [], .ok ()) ∧
      lookupFs fs2 dst = some (.file d) ∧
      ∀ q, pfxB q dst = false → pfxB dst q = false →
        lookupFs fs2 q = lookupFs fs q := by
  have hdec : dst.dropLast ++ [dst.getLast hne] = dst :=
    List.dropLast_append_getLast hne
  have hnb' : noFileBlocks fs dst.dropLast = true := by
    apply noFileBlocks_of_append fs dst.dropLast [dst.getLast hne]
    rw [hdec]; exact hnb
  obtain ⟨fs1, hok1, hframe1, _, es1, hts1⟩ :=
    mkAll_create env.writable hw dst.dropLast fs [] hnb'
  have hpdl : ∀ q, pfxB q dst = false → pfxB q dst.dropLast = false := by
    intro q hq
    cases hpq : pfxB q dst.dropLast with
    | false => rfl
    | true =>
        exfalso
        have h2 := pfxB_append_right q dst.dropLast [dst.getLast hne] hpq
        rw [hdec, hq] at h2
        exact Bool.false_ne_true h2
  have hddl : pfxB dst dst.dropLast = false := by
    cases hpq : pfxB dst dst.dropLast with
    | false => rfl
    | true =>
        exfalso
        have h2 := pfxB_length _ _ hpq
        rw [List.length_dropLast] at h2
        have h3 : dst.length ≠ 0 := by
          intro h4; exact hne (List.length_eq_zero.mp h4)
        omega
  have hsrc1 : lookupFs fs1 src = some (.file d) := by
    rw [hframe1 src (hpdl src hsp)]; exact hsrc
  have hfresh1 : lookupFs fs1 dst = none := by
    rw [hframe1 dst hddl]; exact hfresh
  obtain ⟨fs2, hset2⟩ :=
    setPath_create dst.dropLast (dst.getLast hne) fs1 (.file d) es1 hts1
  rw [hdec] at hset2
  have hwr : writeF env.writable fs1 dst d = .ok fs2 :=
    writeF_eq env.writable hw fs1 fs2 dst d
      (fun es hh => by rw [hh] at hfresh1; simp at hfresh1) hset2
  have hcf : copyF env.writable fs1 src dst = .ok fs2 := by
    rw [copyF_eq env.writable fs1 src dst d hsrc1]; exact hwr
  refine ⟨fs2, ?_, lookup_setPath_self _ _ _ _ hset2, ?_⟩
  · show bindM (readTree src) _ env (World.mk fs k) = _
    apply bindM_okE _ _ env ⟨fs, k⟩ ⟨fs, k⟩ ⟨fs2, k⟩ (some (Entry.file d)) []
      (.ok ())
    · simp [readTree, hsrc]
    · show bindM
        (if dst = [] then pureM ()
         else withRetry (mkdirAllM dst.dropLast) (sudoMkdirM dst.dropLast))
        _ env ⟨fs, k⟩ = _
      rw [if_neg hne]
      apply bindM_okE _ _ env ⟨fs, k⟩ ⟨fs1, k⟩ ⟨fs2, k⟩ () [] (.ok ())
      · exact withRetry_okE _ _ env ⟨fs, k⟩ ⟨fs1, k⟩ []
          (liftFs_okE _ env ⟨fs, k⟩ fs1 hok1)
      · exact withRetry_okE _ _ env ⟨fs1, k⟩ ⟨fs2, k⟩ []
          (liftFs_okE _ env ⟨fs1, k⟩ fs2 hcf)
  · intro q h1 h2
    rw [lookup_setPath_frame dst fs1 fs2 _ hset2 q h1 h2,
      hframe1 q (hpdl q h1)]

theorem cfp_dir_self (env : CopyEnv) (hw : ∀ x, env.writable x = true)
    (src dst : List String) (fs : Entry) (k : Nat)
    (ES : List (String × Entry))
    (hsrc : lookupFs fs src = some (.dir ES))
    (hdst : lookupFs fs dst = some (.dir ES)) (hwf : wfB (.dir ES) = true) :
    copy_file_or_path src dst true env ⟨fs, k⟩ = (⟨fs, k⟩, [], .ok ()) := by
  show bindM (readTree src) _ env (World.mk fs k) = _
  apply bindM_okE _ _ env ⟨fs, k⟩ ⟨fs, k⟩ ⟨fs, k⟩ (some (Entry.dir ES)) []
    (.ok ())
  · simp [readTree, hsrc]
  · show bindM (withRetry (mkdirAllM dst) (sudoMkdirM dst))
      (fun _ => copyChildren src dst ES) env ⟨fs, k⟩ = _
    apply bindM_okE _ _ env ⟨fs, k⟩ ⟨fs, k⟩ ⟨fs, k⟩ () [] (.ok ())
    · exact withRetry_okE _ _ env ⟨fs, k⟩ ⟨fs, k⟩ []
        (liftFs_okE _ env ⟨fs, k⟩ fs
          (mkAll_noop env.writable dst fs [] ES hdst))
    · exact copyChildren_self env hw src dst ES ES fs k
        (fun nc hm => by
          obtain ⟨a, b⟩ := nc
          exact wf_findE ES a b hwf hm) hsrc hdst

theorem cfp_file_self (env : CopyEnv) (hw : ∀ x, env.writable x = true)
    (src dst : List String) (fs : Entry) (k : Nat) (d : List Nat)
    (hsrc : lookupFs fs src = some (.file d))
    (hdst : lookupFs fs dst = some (.file d)) (hne : dst ≠ []) :
    copy_file_or_path src dst true env ⟨fs, k⟩ = (⟨fs, k⟩, [], .ok ()) := by
  have hdec : dst.dropLast ++ [dst.getLast hne] = dst :=
    List.dropLast_append_getLast hne
  obtain ⟨es0, hanc, _⟩ :=
    lookupFs_ancestor fs dst.dropLast (dst.getLast hne) (.file d)
      (by rw [hdec]; exact hdst)
  have hwr : writeF env.writable fs dst d = .ok fs :=
    writeF_eq env.writable hw fs fs dst d
      (fun es hh => by rw [hh] at hdst; simp at hdst)
      (setPath_self _ _ _ hdst)
  have hcf : copyF env.writable fs src dst = .ok fs := by
    rw [copyF_eq env.writable fs src dst d hsrc]; exact hwr
  show bindM (readTree src) _ env (World.mk fs k) = _
  apply bindM_okE _ _ env ⟨fs, k⟩ ⟨fs, k⟩ ⟨fs, k⟩ (some (Entry.file d)) []
    (.ok ())
  · simp [readTree, hsrc]
  · show bindM
      (if dst = [] then pureM ()
       else withRetry (mkdirAllM dst.dropLast) (sudoMkdirM dst.dropLast))
      _ env ⟨fs, k⟩ = _
    rw [if_neg hne]
    apply bindM_okE _ _ env ⟨fs, k⟩ ⟨fs, k⟩ ⟨fs, k⟩ () [] (.ok ())
    · exact withRetry_okE _ _ env ⟨fs, k⟩ ⟨fs, k⟩ []
        (liftFs_okE _ env ⟨fs, k⟩ fs
          (mkAll_noop env.writable dst.dropLast fs [] es0 hanc))
    · exact withRetry_okE _ _ env ⟨fs, k⟩ ⟨fs, k⟩ []
        (liftFs_okE _ env ⟨fs, k⟩ fs hcf)

/-- C1: for every registered source path — a single file or a directory
tree with nested subdirectories — backing it up and then applying with
`folder_contents = true` restores byte-identical content (the very subtree
`t`) at the original live location, and both commands succeed.  The
hypotheses are the frame conditions of the scenario: the source exists
with a well-formed subtree, nothing blocks the repository target, the
target `repo/<profile>/<last component>` does not exist yet, the source is
not inside the repository target, and every write is permitted. -/
theorem C1_round_trip (env : CopyEnv) (hw : ∀ x, env.writable x = true)
    (fs t : Entry) (k : Nat) (repo : List String) (prof : String)
    (srcp dstR : List String)
    (hdst : dstR = repo ++ [prof] ++ lastNormalSegs srcp)
    (h1 : lookupFs fs srcp = some t)
    (h2 : wfB t = true)
    (h3 : noFileBlocks fs dstR = true)
    (h4 : lookupFs fs dstR = none)
    (h5 : pfxB srcp dstR = false) :
    ∃ fs2, roundTrip repo prof srcp env ⟨fs, k⟩ = (⟨fs2, k⟩, [], .ok ()) ∧
      lookupFs fs2 srcp = some t := by
  subst hdst
  have hpd : pfxB (repo ++ [prof] ++ lastNormalSegs srcp) srcp = false := by
    cases hcase : pfxB (repo ++ [prof] ++ lastNormalSegs srcp) srcp with
    | false => rfl
    | true =>
        exfalso
        obtain ⟨e', he'⟩ := pfx_lookup fs _ srcp t hcase h1
        rw [h4] at he'
        exact Option.noConfusion he'
  have hneR : repo ++ [prof] ++ lastNormalSegs srcp ≠ [] := by simp
  cases t with
  | dir ES =>
      obtain ⟨fsB, hrunB, hdstB, hframeB⟩ :=
        cfp_dir_fresh env hw srcp (repo ++ [prof] ++ lastNormalSegs srcp)
          fs k ES h1 h2 h3 h4
      have hsrcB : lookupFs fsB srcp = some (.dir ES) := by
        rw [hframeB srcp h5 hpd]; exact h1
      have hbs : backupStep repo prof srcp env ⟨fs, k⟩ =
          (⟨fsB, k⟩, [], .ok ()) := by
        show bindM (readTree srcp) _ env (World.mk fs k) = _
        apply bindM_okE _ _ env ⟨fs, k⟩ ⟨fs, k⟩ ⟨fsB, k⟩
          (some (Entry.dir ES)) [] (.ok ())
        · simp [readTree, h1]
        · exact hrunB
      have has : applyStepSpec repo prof srcp env ⟨fsB, k⟩ =
          (⟨fsB, k⟩, [], .ok ()) := by
        show bindM (readTree srcp) _ env (World.mk fsB k) = _
        apply bindM_okE _ _ env ⟨fsB, k⟩ ⟨fsB, k⟩ ⟨fsB, k⟩
          (some (Entry.dir ES)) [] (.ok ())
        · simp [readTree, hsrcB]
        · exact cfp_dir_self env hw _ srcp fsB k ES hdstB hsrcB h2
      refine ⟨fsB, ?_, hsrcB⟩
      show bindM (backupStep repo prof srcp) _ env (World.mk fs k) = _
      exact bindM_okE _ _ env ⟨fs, k⟩ ⟨fsB, k⟩ ⟨fsB, k⟩ () [] (.ok ()) hbs has
  | file d =>
      obtain ⟨fsB, hrunB, hdstB, hframeB⟩ :=
        cfp_file_fresh env hw srcp (repo ++ [prof] ++ lastNormalSegs srcp)
          fs k d h1 h3 h4 hneR h5
      have hsrcB : lookupFs fsB srcp = some (.file d) := by
        rw [hframeB srcp h5 hpd]; exact h1
      have hspne : srcp ≠ [] := by
        intro hc
        subst hc
        rw [lookupFs_nil] at h1
        simp at h1
        subst h1
        simp [noFileBlocks] at h3
      have hbs : backupStep repo prof srcp env ⟨fs, k⟩ =
          (⟨fsB, k⟩, [], .ok ()) := by
        show bindM (readTree srcp) _ env (World.mk fs k) = _
        apply bindM_okE _ _ env ⟨fs, k⟩ ⟨fs, k⟩ ⟨fsB, k⟩
          (some (Entry.file d)) [] (.ok ())
        · simp [readTree, h1]
        · exact hrunB
      have has : applyStepSpec repo prof srcp env ⟨fsB, k⟩ =
          (⟨fsB, k⟩, [], .ok ()) := by
        show bindM (readTree srcp) _ env (World.mk fsB k) = _
        apply bindM_okE _ _ env ⟨fsB, k⟩ ⟨fsB, k⟩ ⟨fsB, k⟩
          (some (Entry.file d)) [] (.ok ())
        · simp [readTree, hsrcB]
        · exact cfp_file_self env hw _ srcp fsB k d hdstB hsrcB hspne
      refine ⟨fsB, ?_, hsrcB⟩
      show bindM (backupStep repo prof srcp) _ env (World.mk fs k) = _
      exact bindM_okE _ _ env ⟨fs, k⟩ ⟨fsB, k⟩ ⟨fsB, k⟩ () [] (.ok ()) hbs has

/-- A nested directory tree used as concrete witness data. -/
def tW1 : Entry := .dir [("a", .file [1, 2]), ("sub", .dir [("b", .file [3])])]

/-- A concrete filesystem holding `tW1` at `/home/u/data` and an empty
repository at `/repo`. -/
def fsW1 : Entry :=
  .dir [("home", .dir [("u", .dir [("data", tW1)])]), ("repo", .dir [])]

/-- Witness for the C1 theorem at a concrete nested directory tree. -/
theorem C1_round_trip_witness :
    ∃ fs2, roundTrip ["repo"] "work" ["home", "u", "data"]
        ⟨true, fun _ => true, fun _ => false⟩ ⟨fsW1, 0⟩ =
        (⟨fs2, 0⟩, [], .ok ()) ∧
      lookupFs fs2 ["home", "u", "data"] = some tW1 :=
  C1_round_trip ⟨true, fun _ => true, fun _ => false⟩ (fun _ => rfl) fsW1 tW1 0
    ["repo"] "work" ["home", "u", "data"] ["repo", "work", "data"]
    (by rfl) rfl (by simp [tW1, wfB, keyNotIn]) rfl rfl rfl

/-- Rust `str::trim`: drop whitespace characters from both ends
(`char::is_whitespace` approximated by `Char.isWhitespace`). -/
def rustTrim (s : String) : String :=
  String.mk
    (((s.data.dropWhile Char.isWhitespace).reverse.dropWhile
      Char.isWhitespace).reverse)

/-- Rust `str::to_lowercase`, character by character (ASCII-faithful). -/
def rustToLower (s : String) : String :=
  String.mk (s.data.map Char.toLower)

/-- Model of `confirm` (src/cli.rs lines 5-16, src/main.rs lines 319-330): print the
prompt, read one line (end of input leaves the buffer empty), trim it,
lowercase it, and compare against `"y"` and `"yes"`.  The input is the line
`read_line` produced, `none` standing for end of input. -/
def confirm (line : Option String) : Bool :=
  let input := rustToLower (rustTrim (line.getD ""))
  input == "y" || input == "yes"

/-- The claim's reading of the confirmation primitive: true exactly when a
line was read and, after trimming whitespace and lowercasing, it equals
`"y"` or `"yes"`; every other input, including end of input, is a declined
confirmation. -/
def confirmSpec (line : Option String) : Bool :=
  match line with
  | none => false
  | some l =>
      (rustToLower (rustTrim l) == "y") || (rustToLower (rustTrim l) == "yes")

/-- C9: the confirmation primitive returns true exactly when the line read
from standard input, after trimming and lowercasing, equals "y" or "yes";
every other input, including an empty line or end of input, yields a
declined confirmation. -/
theorem C9_confirm_semantics : ∀ x, confirm x = confirmSpec x := by
  intro x
  cases x with
  | none => rfl
  | some l => rfl

theorem lastNorm_mem (cs : List Comp) (s : String)
    (h : lastNorm cs = some s) : Comp.normal s ∈ cs := by
  induction cs with
  | nil => simp [lastNorm] at h
  | cons c rest ih =>
      simp only [lastNorm] at h
      cases hr : lastNorm rest with
      | some s' =>
          rw [hr] at h
          simp at h
          subst h
          exact List.mem_cons_of_mem _ (ih hr)
      | none =>
          rw [hr] at h
          cases c with
          | normal s'' =>
              simp at h
              subst h
              exact List.mem_cons_self _ _
          | rootDir => simp at h
          | curDir => simp at h
          | parentDir => simp at h

theorem mem_rustComponents_normal (p : RPath) (s : String)
    (h : Comp.normal s ∈ rustComponents p) :
    s ≠ "" ∧ s ≠ "." ∧ s ≠ ".." := by
  have hbody : Comp.normal s ∈ (cleanSegs p.segs).map toComp := by
    unfold rustComponents at h
    by_cases ha : p.abs
    · rw [if_pos ha] at h
      rcases List.mem_cons.mp h with h1 | h1
      · exact absurd h1 (by simp)
      · exact h1
    · rw [if_neg ha] at h
      by_cases hh : p.segs.head? = some "."
      · rw [if_pos hh] at h
        rcases List.mem_cons.mp h with h1 | h1
        · exact absurd h1 (by simp)
        · exact h1
      · rw [if_neg hh] at h
        exact h
  obtain ⟨x, hx, htc⟩ := List.mem_map.mp hbody
  have hxs : x = s ∧ x ≠ ".." := by
    unfold toComp at htc
    by_cases hdd : x = ".."
    · rw [if_pos hdd] at htc; simp at htc
    · rw [if_neg hdd] at htc
      simp at htc
      exact ⟨htc, hdd⟩
  obtain ⟨hxe, hdd⟩ := hxs
  subst hxe
  have := List.of_mem_filter hx
  simp at this
  exact ⟨this.1, this.2, hdd⟩

/-- C8: the last-normal-component extraction is idempotent — applying it
to its own output (a single-segment relative path or the empty path)
returns that output unchanged. -/
theorem C8_extract_idem :
    ∀ p : RPath, lastNormalComponent (lastNormalComponent p) =
      lastNormalComponent p := by
  intro p
  cases hl : lastNorm (rustComponents p) with
  | none =>
      have hinner : lastNormalComponent p = ⟨false, []⟩ := by
        simp [lastNormalComponent, hl]
      rw [hinner]
      rfl
  | some s =>
      obtain ⟨h1, h2, h3⟩ :=
        mem_rustComponents_normal p s (lastNorm_mem _ _ hl)
      have hinner : lastNormalComponent p = ⟨false, [s]⟩ := by
        simp [lastNormalComponent, hl]
      rw [hinner]
      simp [lastNormalComponent, rustComponents, cleanSegs, toComp,
        lastNorm, h1, h2, h3]

/-- C6: `profile delete <name>` on an existing profile clears
`selected_profile` exactly when the deleted profile was the selected one,
and leaves it unchanged otherwise. -/
theorem C6_delete_selected (cfg : FuxiConfig) (name : String)
    (profs : List (String × List RPath)) (hp : cfg.profiles = some profs)
    (hmem : hasA profs name = true) :
    ((cfg.selected_profile = some name →
        (profile_delete cfg name).1.selected_profile = none) ∧
      (cfg.selected_profile ≠ some name →
        (profile_delete cfg name).1.selected_profile =
          cfg.selected_profile)) := by
  constructor
  · intro hsel
    simp [profile_delete, hp, hmem, hsel]
  · intro hsel
    simp [profile_delete, hp, hmem, hsel]

/-- Witness for the C6 theorem: deleting the selected profile clears the
selection, deleting the other one keeps it. -/
theorem C6_delete_selected_witness :
    (profile_delete
        ⟨none, some "w", some [("w", []), ("x", [])], none, none, none,
          "main"⟩ "w").1.selected_profile = none ∧
    (profile_delete
        ⟨none, some "w", some [("w", []), ("x", [])], none, none, none,
          "main"⟩ "x").1.selected_profile = some "w" :=
  ⟨(C6_delete_selected _ "w" [("w", []), ("x", [])] rfl rfl).1 rfl,
    (C6_delete_selected _ "x" [("w", []), ("x", [])] rfl rfl).2 (by simp)⟩

/-- C4: `profile switch` is a subcommand `cli()` declares (so clap parses
it), yet the dispatcher only handles `"select"` and sends `"switch"` into
its `unreachable!()` arm — the process panics instead of setting
`selected_profile` and exiting successfully, for every configuration. -/
theorem C4_switch_dispatch_panics :
    "switch" ∈ profile_cli_subcommands ∧
      ∀ (cfg : FuxiConfig) (name : String),
        profile_dispatch cfg "switch" name = POut.panicked := by
  constructor
  · simp [profile_cli_subcommands]
  · intro cfg name
    rfl

/-- C3 counterexample: a configuration file that exists but fails TOML
parsing makes `load_config` return an error (the `builder.build()?` at
src/cfg.rs line 65 propagates parse failures; only deserialization
failures fall back to the default), so loading does not succeed for every
on-disk state. -/
theorem C3_malformed_load_fails :
    load_config "linux" (ConfigFile.invalidToml 0) =
      Except.error CmdErr.loadFailed := rfl

/-- C3 amended: for every on-disk state other than a present-but-unparseable
file, `load_config` succeeds, and an absent file or one that parses but
does not deserialize yields the documented default record. -/
theorem C3_load_default_amended (os : String) (f : ConfigFile)
    (hnotoml : ∀ r, f ≠ ConfigFile.invalidToml r) :
    ∃ c, load_config os f = .ok c ∧
      ((f = .absent ∨ ∃ r, f = .wrongShape r) → c = defaultFuxiConfig os) := by
  cases f with
  | absent => exact ⟨_, rfl, fun _ => rfl⟩
  | invalidToml r => exact absurd rfl (hnotoml r)
  | wrongShape r => exact ⟨_, rfl, fun _ => rfl⟩
  | wellFormed c b =>
      refine ⟨c, rfl, ?_⟩
      intro hc
      rcases hc with h | ⟨r, h⟩ <;> simp at h

/-- Witness for the C3 amended theorem at the absent-file state. -/
theorem C3_load_default_amended_witness :
    ∃ c, load_config "linux" ConfigFile.absent = .ok c ∧
      ((ConfigFile.absent = ConfigFile.absent ∨
          ∃ r, ConfigFile.absent = ConfigFile.wrongShape r) →
        c = defaultFuxiConfig "linux") :=
  C3_load_default_amended "linux" .absent (fun r => by simp)

theorem upsertA_of_findA {α : Type} (l : List (String × α)) (n : String)
    (v : α) (h : findA l n = some v) : upsertA l n v = l := by
  induction l with
  | nil => simp [findA] at h
  | cons hd rest ih =>
      obtain ⟨m, x⟩ := hd
      by_cases hm : m = n
      · subst hm
        simp [findA] at h
        simp [upsertA, h]
      · simp [findA, hm] at h
        simp [upsertA, hm, ih h]

/-- C5 counterexample: with the selected profile `"w"` already holding the
path `/a`, `path add /a` reports "already exists" and leaves the list
unchanged — but `save_config` still runs, rewriting the configuration file;
on a file whose bytes were not the canonical serialization (the `false`
flag), the saved file changes, so the command does mutate the saved
configuration file on disk. -/
theorem C5_duplicate_add_cex :
    add_paths "linux"
        (ConfigFile.wellFormed
          ⟨none, some "w", some [("w", [⟨true, ["a"]⟩])], none, none, none,
            "main"⟩ false)
        [⟨true, ["a"]⟩] =
      .ok (ConfigFile.wellFormed
          ⟨none, some "w", some [("w", [⟨true, ["a"]⟩])], none, none, none,
            "main"⟩ true,
        [Msg.alreadyExists ⟨true, ["a"]⟩, Msg.updatedOk]) ∧
    ConfigFile.wellFormed
        ⟨none, some "w", some [("w", [⟨true, ["a"]⟩])], none, none, none,
          "main"⟩ true ≠
      ConfigFile.wellFormed
        ⟨none, some "w", some [("w", [⟨true, ["a"]⟩])], none, none, none,
          "main"⟩ false := by
  constructor
  · rfl
  · simp

/-- C5 amended: adding a path already present in the selected profile
leaves the stored list unchanged (the whole record is unchanged) and
reports "already exists", but the configuration file is still
unconditionally rewritten with the canonical serialization of that same
record. -/
theorem C5_duplicate_add_amended (os : String) (cfg : FuxiConfig) (b : Bool)
    (sel : String) (profs : List (String × List RPath)) (paths : List RPath)
    (p : RPath) (hsel : cfg.selected_profile = some sel) (hne : sel ≠ "")
    (hprofs : cfg.profiles = some profs)
    (hfind : findA profs sel = some paths) (hmem : p ∈ paths) :
    add_paths os (ConfigFile.wellFormed cfg b) [p] =
      .ok (ConfigFile.wellFormed cfg true,
        [Msg.alreadyExists p, Msg.updatedOk]) := by
  obtain ⟨pf, sp, pr, lb, br, gr, gb⟩ := cfg
  simp only at hsel hprofs
  subst hsel
  subst hprofs
  simp [add_paths, load_config, hne, hasA, hfind, addOne, hmem,
    upsertA_of_findA profs sel paths hfind, serializeCfg]

/-- Witness for the C5 amended theorem at the counterexample input. -/
theorem C5_duplicate_add_amended_witness :
    add_paths "linux"
        (ConfigFile.wellFormed
          ⟨none, some "w", some [("w", [⟨true, ["a"]⟩])], none, none, none,
            "main"⟩ false)
        [⟨true, ["a"]⟩] =
      .ok (ConfigFile.wellFormed
          ⟨none, some "w", some [("w", [⟨true, ["a"]⟩])], none, none, none,
            "main"⟩ true,
        [Msg.alreadyExists ⟨true, ["a"]⟩, Msg.updatedOk]) :=
  C5_duplicate_add_amended "linux" _ false "w" [("w", [⟨true, ["a"]⟩])]
    [⟨true, ["a"]⟩] ⟨true, ["a"]⟩ rfl (by simp) rfl rfl (by simp)

/-- C10: both the `backup` and the `apply` arm persist the new
`last_backup_id` to the configuration file on disk as their first step, so
in every outcome — including each later precondition error, a failed git
pull, or a failed copy — the on-disk record carries the new identifier. -/
theorem C10_last_backup_id_first (os : String) (w : List String → Bool)
    (gitOk : Bool) (cfg c0 : FuxiConfig) (newId aid : String)
    (st : ConfigFile × Entry) (hload : load_config os st.1 = .ok c0) :
    (backup_arm os w cfg newId st).1.1 =
        serializeCfg { c0 with last_backup_id := some newId } ∧
    (apply_arm os w gitOk cfg aid st).1.1 =
        serializeCfg { c0 with last_backup_id := some aid } := by
  have hupd : ∀ id, update_last_backup_id os st.1 id =
      .ok (serializeCfg { c0 with last_backup_id := some id }) := by
    intro id
    simp [update_last_backup_id, hload]
  constructor
  · unfold backup_arm
    rw [hupd newId]
    cases cfg.backup_repo_path with
    | none => rfl
    | some rp =>
        simp only
        by_cases hg : cfg.github_repo.isNone
        · simp [hg]
        · simp only [hg, Bool.false_eq_true, if_false]
          cases cfg.selected_profile with
          | none => rfl
          | some prof =>
              simp only
              by_cases hpe : (get_selected_profile_paths cfg).isEmpty
              · simp [hpe]
              · simp only [hpe, Bool.false_eq_true, if_false]
                cases backupPaths w rp.fsSegs prof
                    (get_selected_profile_paths cfg) st.2 with
                | ok fs' => rfl
                | error e => rfl
  · unfold apply_arm
    rw [hupd aid]
    cases cfg.backup_repo_path with
    | none => rfl
    | some rp =>
        simp only
        by_cases hpe : (get_selected_profile_paths cfg).isEmpty
        · simp [hpe]
        · simp only [hpe, Bool.false_eq_true, if_false]
          cases applyPathsMain w rp.fsSegs
              (get_selected_profile_paths cfg) st.2 with
          | ok fs' => rfl
          | error e => rfl

/-- Witness for the C10 theorem at a concrete state (a backup arm that
fails with "repository not set" still records the identifier). -/
theorem C10_last_backup_id_first_witness :
    (backup_arm "linux" (fun _ => true)
        (defaultFuxiConfig "linux") "backup_1"
        (ConfigFile.wellFormed (defaultFuxiConfig "linux") true,
          Entry.dir [])).1.1 =
        serializeCfg
          { defaultFuxiConfig "linux" with last_backup_id := some "backup_1" } ∧
    (apply_arm "linux" (fun _ => true) true
        (defaultFuxiConfig "linux") "backup_2"
        (ConfigFile.wellFormed (defaultFuxiConfig "linux") true,
          Entry.dir [])).1.1 =
        serializeCfg
          { defaultFuxiConfig "linux" with last_backup_id := some "backup_2" } :=
  C10_last_backup_id_first "linux" (fun _ => true) true
    (defaultFuxiConfig "linux") (defaultFuxiConfig "linux") "backup_1"
    "backup_2" _ rfl

/-- C2: invoking the modelled `apply` with the argument `latest` when no
`last_backup_id` is recorded and no backups exist fails with the "no last
backup ID" error and leaves the whole state — the configuration file on
disk and the filesystem — untouched. -/
theorem C2_apply_latest_guard (os : String) (env : CopyEnv) (gitOk : Bool)
    (cfg : FuxiConfig) (st : ConfigFile × World)
    (hid : cfg.last_backup_id = none) :
    apply_latest os env gitOk cfg [] "latest" st =
      (st, .error CmdErr.noLastBackupId) := by
  simp [apply_latest, hid]

/-- Witness for the C2 theorem at the default (fresh) configuration. -/
theorem C2_apply_latest_guard_witness :
    apply_latest "linux" ⟨true, fun _ => true, fun _ => false⟩ true
        (defaultFuxiConfig "linux") [] "latest"
        (ConfigFile.absent, ⟨Entry.dir [], 0⟩) =
      ((ConfigFile.absent, ⟨Entry.dir [], 0⟩), .error CmdErr.noLastBackupId) :=
  C2_apply_latest_guard "linux" ⟨true, fun _ => true, fun _ => false⟩ true
    (defaultFuxiConfig "linux") (ConfigFile.absent, ⟨Entry.dir [], 0⟩) rfl

/-!
Trace soundness of the retry mechanism (claim C7).
-/

/-- A retry event whose failing step was successfully elevated. -/
def EvOK (ev : Ev) : Prop := ev.act = RAct.elevDone (.ok ())

/-- How a final (unrecovered) retry event constrains the returned error:
with no prompt (non-Unix) or a declined prompt the original error comes
back unchanged; after a confirmed prompt the elevated subprocess's failure
comes back. -/
def BadMatches (ev : Ev) (e : Err) : Prop :=
  (ev.act = RAct.noRetry → e = ev.orig) ∧
  (ev.act = RAct.declined → e = ev.orig) ∧
  (∀ e', ev.act = RAct.elevDone (.error e') → e = e')

/-- Relation between the event trace of a run and its result: a successful
run only ever saw failures that were confirmed and successfully elevated;
a failed run saw successfully elevated failures except possibly at its
last event, which — if it was not a successful elevation — determines the
returned error per `BadMatches`. -/
def TraceRes {α : Type} (t : List Ev) (r : Except Err α) : Prop :=
  match r with
  | .ok _ => ∀ ev ∈ t, EvOK ev
  | .error e =>
      (∀ ev ∈ t.dropLast, EvOK ev) ∧
      (∀ ev, t.getLast? = some ev → BadMatches ev e)

/-- A computation all of whose runs satisfy `TraceRes`, and which on
non-Unix platforms only produces no-prompt events. -/
def SoundT {α : Type} (m : M α) : Prop :=
  ∀ env w, TraceRes (m env w).2.1 (m env w).2.2 ∧
    (env.unix = false → ∀ ev ∈ (m env w).2.1, ev.act = RAct.noRetry)

/-- A computation that records no retry events. -/
def EventFree {α : Type} (m : M α) : Prop :=
  ∀ env w, (m env w).2.1 = []

theorem BadMatches_of_EvOK (ev : Ev) (e : Err) (h : EvOK ev) :
    BadMatches ev e := by
  unfold EvOK at h
  refine ⟨?_, ?_, ?_⟩
  · intro hc; rw [h] at hc; exact absurd hc (by simp)
  · intro hc; rw [h] at hc; exact absurd hc (by simp)
  · intro e' hc; rw [h] at hc; simp at hc

theorem eventFree_liftFs (f : (List String → Bool) → Entry → Except Err Entry) :
    EventFree (liftFs f) := by
  intro env w
  unfold liftFs
  cases f env.writable w.fs <;> rfl

theorem eventFree_pureM {α : Type} (a : α) : EventFree (pureM a) :=
  fun _ _ => rfl

theorem eventFree_readTree (p : List String) : EventFree (readTree p) :=
  fun _ _ => rfl

theorem eventFree_bindM {α β : Type} (m : M α) (f : α → M β)
    (hm : EventFree m) (hf : ∀ a, EventFree (f a)) :
    EventFree (bindM m f) := by
  intro env w
  unfold bindM
  rcases hmw : m env w with ⟨w1, t1, r1⟩
  have ht1 : t1 = [] := by have := hm env w; rw [hmw] at this; exact this
  cases r1 with
  | error e => simpa using ht1
  | ok a =>
      rcases hfw : f a env w1 with ⟨w2, t2, r2⟩
      have ht2 : t2 = [] := by have := hf a env w1; rw [hfw] at this; exact this
      simp [ht1, hfw, ht2]

theorem eventFree_sudo_copy (src dst : List String) :
    EventFree (sudo_copy src dst) := by
  unfold sudo_copy
  apply eventFree_bindM
  · by_cases h : dst = []
    · rw [if_pos h]; exact eventFree_pureM ()
    · rw [if_neg h]; exact eventFree_liftFs _
  · intro a; exact eventFree_liftFs _

theorem soundT_of_eventFree {α : Type} (m : M α) (h : EventFree m) :
    SoundT m := by
  intro env w
  have ht := h env w
  constructor
  · rw [ht]
    cases hr : (m env w).2.2 with
    | ok a => intro ev hev; simp at hev
    | error e =>
        constructor
        · intro ev hev; simp at hev
        · intro ev hev; simp at hev
  · intro _ ev hev
    rw [ht] at hev
    simp at hev

theorem dropLast_append_ne (t1 t2 : List Ev) (h : t2 ≠ []) :
    (t1 ++ t2).dropLast = t1 ++ t2.dropLast := by
  induction t1 with
  | nil => simp
  | cons a t1' ih =>
      have hne : t1' ++ t2 ≠ [] := by
        simp only [ne_eq, List.append_eq_nil]
        intro hc
        exact h hc.2
      cases hc : t1' ++ t2 with
      | nil => exact absurd hc hne
      | cons b r =>
          rw [List.cons_append, hc, List.dropLast_cons₂, ← hc, ih]
          rfl

theorem getLast?_append_ne (t1 t2 : List Ev) (h : t2 ≠ []) :
    (t1 ++ t2).getLast? = t2.getLast? :=
  List.getLast?_append_of_ne_nil t1 h

theorem soundT_bindM {α β : Type} (m : M α) (f : α → M β)
    (hm : SoundT m) (hf : ∀ a, SoundT (f a)) : SoundT (bindM m f) := by
  intro env w
  have hm1 := hm env w
  rcases hmw : m env w with ⟨w1, t1, r1⟩
  rw [hmw] at hm1
  cases r1 with
  | error e =>
      have hres : bindM m f env w = (w1, t1, .error e) := by
        simp [bindM, hmw]
      rw [hres]
      exact hm1
  | ok a =>
      have hf1 := hf a env w1
      rcases hfw : f a env w1 with ⟨w2, t2, r2⟩
      rw [hfw] at hf1
      have hres : bindM m f env w = (w2, t1 ++ t2, r2) := by
        simp [bindM, hmw, hfw]
      rw [hres]
      obtain ⟨htr1, hnu1⟩ := hm1
      obtain ⟨htr2, hnu2⟩ := hf1
      constructor
      · cases r2 with
        | ok b =>
            intro ev hev
            rcases List.mem_append.mp hev with h1 | h1
            · exact htr1 ev h1
            · exact htr2 ev h1
        | error e =>
            obtain ⟨hdrop, hlast⟩ := htr2
            by_cases ht2nil : t2 = []
            · subst ht2nil
              constructor
              · intro ev hev
                rw [List.append_nil] at hev
                exact htr1 ev (List.mem_of_mem_dropLast hev)
              · intro ev hlasteq
                rw [List.append_nil] at hlasteq
                obtain ⟨hne', heq⟩ :=
                  List.mem_getLast?_eq_getLast (Option.mem_def.mpr hlasteq)
                have hmem : ev ∈ t1 := by
                  rw [heq]; exact List.getLast_mem hne'
                exact BadMatches_of_EvOK ev e (htr1 ev hmem)
            · constructor
              · intro ev hev
                rw [dropLast_append_ne t1 t2 ht2nil] at hev
                rcases List.mem_append.mp hev with h1 | h1
                · exact htr1 ev h1
                · exact hdrop ev h1
              · intro ev hlasteq
                rw [getLast?_append_ne t1 t2 ht2nil] at hlasteq
                exact hlast ev hlasteq
      · intro hux ev hev
        rcases List.mem_append.mp hev with h1 | h1
        · exact hnu1 hux ev h1
        · exact hnu2 hux ev h1

theorem soundT_withRetry (m elev : M Unit) (hm : EventFree m)
    (he : EventFree elev) : SoundT (withRetry m elev) := by
  intro env w
  rcases hmw : m env w with ⟨w1, t1, r1⟩
  have ht1 : t1 = [] := by have := hm env w; rw [hmw] at this; exact this
  subst ht1
  cases r1 with
  | ok a =>
      have hres : withRetry m elev env w = (w1, [], .ok a) := by
        simp [withRetry, hmw]
      rw [hres]
      exact ⟨fun ev hev => by simp at hev, fun _ ev hev => by simp at hev⟩
  | error e =>
      by_cases hux : env.unix = true
      · by_cases hans : env.answers w1.k = true
        · rcases hew : elev env ⟨w1.fs, w1.k + 1⟩ with ⟨w2, t2, r2⟩
          have ht2 : t2 = [] := by
            have := he env ⟨w1.fs, w1.k + 1⟩; rw [hew] at this; exact this
          subst ht2
          cases r2 with
          | ok b =>
              have hres : withRetry m elev env w =
                  (w2, [⟨e, RAct.elevDone (.ok ())⟩], .ok ()) := by
                simp [withRetry, hmw, elevate, hux, hans, hew]
              rw [hres]
              constructor
              · intro ev hev
                simp at hev
                subst hev
                rfl
              · intro hfalse
                rw [hfalse] at hux
                exact absurd hux (by simp)
          | error e' =>
              have hres : withRetry m elev env w =
                  (w2, [⟨e, RAct.elevDone (.error e')⟩], .error e') := by
                simp [withRetry, hmw, elevate, hux, hans, hew]
              rw [hres]
              constructor
              · constructor
                · intro ev hev; simp at hev
                · intro ev hlasteq
                  simp at hlasteq
                  subst hlasteq
                  refine ⟨?_, ?_, ?_⟩
                  · intro hc; simp at hc
                  · intro hc; simp at hc
                  · intro e'' hc
                    simp at hc
                    exact hc
              · intro hfalse
                rw [hfalse] at hux
                exact absurd hux (by simp)
        · have hres : withRetry m elev env w =
              (⟨w1.fs, w1.k + 1⟩, [⟨e, RAct.declined⟩], .error e) := by
            simp [withRetry, hmw, elevate, hux, hans]
          rw [hres]
          constructor
          · constructor
            · intro ev hev; simp at hev
            · intro ev hlasteq
              simp at hlasteq
              subst hlasteq
              refine ⟨?_, ?_, ?_⟩
              · intro hc; simp at hc
              · intro _; rfl
              · intro e'' hc; simp at hc
          · intro hfalse
            rw [hfalse] at hux
            exact absurd hux (by simp)
      · have hres : withRetry m elev env w =
            (w1, [⟨e, RAct.noRetry⟩], .error e) := by
          simp [withRetry, hmw, elevate, hux]
        rw [hres]
        constructor
        · constructor
          · intro ev hev; simp at hev
          · intro ev hlasteq
            simp at hlasteq
            subst hlasteq
            refine ⟨?_, ?_, ?_⟩
            · intro _; rfl
            · intro hc; simp at hc
            · intro e'' hc; simp at hc
        · intro _ ev hev
          simp at hev
          subst hev
          rfl

theorem soundT_copyChildren (src dst : List String)
    (es0 : List (String × Entry)) : SoundT (copyChildren src dst es0) := by
  induction es0 with
  | nil => exact soundT_of_eventFree _ (eventFree_pureM ())
  | cons hd rest ih =>
      obtain ⟨n, c⟩ := hd
      cases c with
      | dir es' =>
          exact soundT_bindM _ _
            (soundT_withRetry _ _ (eventFree_liftFs _)
              (eventFree_sudo_copy _ _))
            (fun _ => ih)
      | file d =>
          exact soundT_bindM _ _
            (soundT_withRetry _ _ (eventFree_liftFs _)
              (eventFree_sudo_copy _ _))
            (fun _ => ih)

theorem soundT_copy_file_or_path (src dst : List String) (fc : Bool) :
    SoundT (copy_file_or_path src dst fc) := by
  unfold copy_file_or_path
  apply soundT_bindM
  · exact soundT_of_eventFree _ (eventFree_readTree src)
  · intro t
    cases t with
    | none =>
        apply soundT_bindM
        · by_cases hd : dst = []
          · rw [if_pos hd]
            exact soundT_of_eventFree _ (eventFree_pureM ())
          · rw [if_neg hd]
            exact soundT_withRetry _ _ (eventFree_liftFs _) (eventFree_liftFs _)
        · intro _
          exact soundT_withRetry _ _ (eventFree_liftFs _)
            (eventFree_sudo_copy _ _)
    | some e =>
        cases e with
        | file d =>
            apply soundT_bindM
            · by_cases hd : dst = []
              · rw [if_pos hd]
                exact soundT_of_eventFree _ (eventFree_pureM ())
              · rw [if_neg hd]
                exact soundT_withRetry _ _ (eventFree_liftFs _)
                  (eventFree_liftFs _)
            · intro _
              exact soundT_withRetry _ _ (eventFree_liftFs _)
                (eventFree_sudo_copy _ _)
        | dir es =>
            cases fc with
            | true =>
                apply soundT_bindM
                · exact soundT_withRetry _ _ (eventFree_liftFs _)
                    (eventFree_liftFs _)
                · intro _
                  exact soundT_copyChildren src dst es
            | false =>
                exact soundT_withRetry _ _ (eventFree_liftFs _)
                  (eventFree_sudo_copy _ _)

/-- C7: in every run of the synchronizer `copy_file_or_path`, the retry
events and the result are related as the spec states — a successful run
only ever saw failing directory-creation/copy steps that were confirmed
and successfully elevated (the retry path never converts a failure into
success any other way); a failing run saw successfully elevated failures
except possibly at the final event, where a declined prompt (or, on
non-Unix, no prompt at all) returns the original I/O error unchanged and a
confirmed prompt returns the elevated subprocess's failure; and off Unix
no prompt is ever offered. -/
theorem C7_retry_semantics :
    ∀ (src dst : List String) (fc : Bool) (env : CopyEnv) (w : World),
      TraceRes (copy_file_or_path src dst fc env w).2.1
        (copy_file_or_path src dst fc env w).2.2 ∧
      (env.unix = false →
        ∀ ev ∈ (copy_file_or_path src dst fc env w).2.1,
          ev.act = RAct.noRetry) :=
  fun src dst fc env w => soundT_copy_file_or_path src dst fc env w

/-- Witness for the C7 theorem at a concrete run (a permission-denied copy
on a non-Unix environment). -/
theorem C7_retry_semantics_witness :
    TraceRes (copy_file_or_path ["x"] ["y"] false
        ⟨false, fun _ => false, fun _ => false⟩ ⟨.dir [], 0⟩).2.1
      (copy_file_or_path ["x"] ["y"] false
        ⟨false, fun _ => false, fun _ => false⟩ ⟨.dir [], 0⟩).2.2 ∧
    ((⟨false, fun _ => false, fun _ => false⟩ : CopyEnv).unix = false →
      ∀ ev ∈ (copy_file_or_path ["x"] ["y"] false
          ⟨false, fun _ => false, fun _ => false⟩ ⟨.dir [], 0⟩).2.1,
        ev.act = RAct.noRetry) :=
  C7_retry_semantics ["x"] ["y"] false ⟨false, fun _ => false, fun _ => false⟩
    ⟨.dir [], 0⟩
